import Mathlib

/-!
Verification of the shesha RLM engine core against its specification.

The Python sources are shallowly embedded: strings become `List Char`
(with ASCII approximations of Python's Unicode character classes where
noted), dictionaries become association lists, byte buffers become
`List Nat`, and the deterministic regular expressions used by the code
are embedded as explicit maximal-munch matchers (each regex in the
source only combines literals with greedy classes whose neighbouring
components are character-disjoint, so maximal munch coincides with
backtracking semantics).
-/

namespace Shesha

/-! ## Generic utilities -/

/-- Length of the longest prefix whose characters satisfy `f`
(the length matched by a greedy character class). -/
def takeWhileLen (f : Char → Bool) : List Char → Nat
  | [] => 0
  | c :: cs => if f c then takeWhileLen f cs + 1 else 0

/-- A greedy class never matches more than the whole text. -/
theorem takeWhileLen_le (f : Char → Bool) : ∀ s : List Char, takeWhileLen f s ≤ s.length := by
  intro s
  induction s with
  | nil => simp [takeWhileLen]
  | cons c cs ih =>
    simp only [takeWhileLen, List.length_cons]
    split <;> omega

/-- Order-preserving deduplication keeping first occurrences, as done by
the `seen`-set loops in `extract_citations` / `extract_quotes`. -/
def dedupeKeepFirst [DecidableEq α] (seen : List α) : List α → List α
  | [] => []
  | x :: xs => if x ∈ seen then dedupeKeepFirst seen xs else x :: dedupeKeepFirst (x :: seen) xs

/-- Index of the first occurrence of `x` (length of the list when
absent); the position notion used to state first-appearance order. -/
def firstIdx [DecidableEq α] (l : List α) (x : α) : Nat :=
  match l with
  | [] => 0
  | y :: ys => if y = x then 0 else firstIdx ys x + 1

/-- Python `\d` (ASCII digits). -/
def isDigitCh (c : Char) : Bool := c.isDigit

/-- Python `\w`, restricted to ASCII: letters, digits and underscore. -/
def isWordCh (c : Char) : Bool := c.isAlphanum || c = '_'

/-- Python `\s`, restricted to ASCII: space, tab, newline, carriage
return, vertical tab and form feed. -/
def isSpaceCh (c : Char) : Bool :=
  c = ' ' || c = '\t' || c = '\n' || c = '\x0d' || c = '\x0b' || c = '\x0c'

/-- Decimal digits of a natural number, most significant first
(the characters Python interpolates for an `int`). -/
def natToDigits (n : Nat) : List Char :=
  if h : n < 10 then [Char.ofNat (48 + n)]
  else natToDigits (n / 10) ++ [Char.ofNat (48 + n % 10)]
termination_by n
decreasing_by exact Nat.div_lt_self (by omega) (by omega)

/-- `int()` applied to a run of decimal digit characters. -/
def digitsToNat (ds : List Char) : Nat :=
  ds.foldl (fun n c => n * 10 + (c.toNat - 48)) 0

/-- `"\n".join(lines)`. -/
def joinNL : List (List Char) → List Char
  | [] => []
  | [l] => l
  | l :: ls => l ++ '\n' :: joinNL ls

/-! ## C9: `detect_content_type` (semantic_verification.py) -/

/-- The closed set `CODE_EXTENSIONS` from semantic_verification.py. -/
def CODE_EXTENSIONS : List (List Char) :=
  [".py", ".pl", ".pm", ".t", ".js", ".ts", ".jsx", ".tsx", ".mjs", ".cjs",
   ".rs", ".go", ".java", ".rb", ".c", ".cpp", ".h", ".hpp", ".cc", ".cs",
   ".swift", ".kt", ".scala", ".clj", ".ex", ".exs", ".sh", ".bash", ".zsh",
   ".ps1", ".sql", ".r", ".m", ".mm", ".lua", ".vim", ".el", ".hs", ".php",
   ".dart", ".v", ".zig"].map String.toList

/-- Split a POSIX path on `/`. -/
def splitOnSlash : List Char → List (List Char)
  | [] => [[]]
  | c :: cs =>
    match splitOnSlash cs with
    | [] => [[c]]
    | h :: t => if c = '/' then [] :: h :: t else (c :: h) :: t

/-- `PurePosixPath(name).name`: last path component after dropping empty
and `.` components. -/
def posixPathName (name : List Char) : List Char :=
  (((splitOnSlash name).filter (fun p => p ≠ [] ∧ p ≠ ['.'])).getLast?).getD []

/-- Index of last occurrence of `c` (Python `str.rfind`). -/
def rfindIdx (c : Char) (cs : List Char) : Option Nat :=
  (cs.enum.foldl (fun acc x => if x.2 = c then some x.1 else acc) none)

/-- `PurePosixPath(name).suffix`: extension `name[i:]` when the last dot
sits at `0 < i < len(name) - 1`, else empty. -/
def posixSuffix (name : List Char) : List Char :=
  let base := posixPathName name
  match rfindIdx '.' base with
  | none => []
  | some i => if 0 < i ∧ i < base.length - 1 then base.drop i else []

/-- Number of names whose lower-cased suffix is a code extension. -/
def codeCount (docNames : List (List Char)) : Nat :=
  (docNames.filter
    (fun n => CODE_EXTENSIONS.contains ((posixSuffix n).map Char.toLower))).length

/-- `detect_content_type`: `"code"` on a strict majority of code files
(`code_count > len(doc_names) / 2`, written over `Nat` as
`2 * code_count > len`), `"general"` otherwise, also on the empty list. -/
def detect_content_type (docNames : List (List Char)) : String :=
  if docNames = [] then "general"
  else if 2 * codeCount docNames > docNames.length then "code"
  else "general"

/-! ## C6: `ContainerPool` (pool.py) -/

/-- Pool state: executors are identified by allocation order (`next` is
the next fresh id); `available` is the deque, `inUse` the set. -/
structure PoolState where
  available : List Nat
  inUse : List Nat
  started : Bool
  next : Nat
deriving DecidableEq, Repr

/-- The pool operations exercised by callers. -/
inductive PoolOp where
  | start
  | acquire
  | release (e : Nat)
  | discard (e : Nat)
  | stop
deriving DecidableEq, Repr

/-- One pool method call, mirroring pool.py (`start` pre-warms `size`
fresh executors when not yet started; `acquire` raises when stopped
– modelled as no mutation – pops the deque head or creates a fresh
executor; `release` moves an in-use executor to the deque tail;
`discard` just drops it from `inUse`; `stop` clears both). -/
def poolStep (size : Nat) (s : PoolState) : PoolOp → PoolState
  | .start =>
    if s.started then s
    else
      { available := s.available ++ (List.range size).map (fun i => s.next + i),
        inUse := s.inUse, started := true, next := s.next + size }
  | .acquire =>
    if s.started then
      match s.available with
      | e :: rest => { s with available := rest, inUse := s.inUse ++ [e] }
      | [] => { s with inUse := s.inUse ++ [s.next], next := s.next + 1 }
    else s
  | .release e =>
    if e ∈ s.inUse then
      { s with inUse := s.inUse.erase e, available := s.available ++ [e] }
    else s
  | .discard e => { s with inUse := s.inUse.erase e }
  | .stop => { available := [], inUse := [], started := false, next := s.next }

/-- A fresh pool run through a sequence of operations. -/
def poolRun (size : Nat) (ops : List PoolOp) : PoolState :=
  ops.foldl (poolStep size) ⟨[], [], false, 0⟩

/-- Pool well-formedness: both collections are duplicate-free, disjoint,
and only hold executors allocated so far. -/
def PoolInv (s : PoolState) : Prop :=
  s.available.Nodup ∧ s.inUse.Nodup ∧
  (∀ x ∈ s.available, x ∉ s.inUse) ∧
  (∀ x ∈ s.available, x < s.next) ∧ (∀ x ∈ s.inUse, x < s.next)

/-! ## C5: `retry_with_backoff` (retry.py) -/

/-- The three error classes of llm/exceptions.py; the payload
distinguishes individual raised exceptions. -/
inductive RetryErr where
  | permanentE (i : Nat)
  | rateLimitE (i : Nat)
  | transientE (i : Nat)
deriving DecidableEq, Repr

/-- `RateLimitError` and `TransientError` are retryable,
`PermanentError` is not. -/
def RetryErr.retryable : RetryErr → Bool
  | .permanentE _ => false
  | _ => true

/-- What one invocation of `fn` does. -/
inductive Outcome where
  | ok (v : Nat)
  | err (e : RetryErr)
deriving DecidableEq, Repr

/-- Observable events of a `retry_with_backoff` run. -/
inductive REvent where
  | calledFn (attempt : Nat)
  | firedOnRetry (e : RetryErr) (attempt : Nat)
  | slept (attempt : Nat)
deriving DecidableEq, Repr

/-- Result of a `retry_with_backoff` run: value returned or exception
propagated to the caller. -/
inductive RResult where
  | returned (v : Nat)
  | raised (e : RetryErr)
deriving DecidableEq, Repr

/-- The `for attempt in range(max_retries + 1)` loop of
`retry_with_backoff`: `fn` is modelled by the outcome of each attempt;
a `PermanentError` re-raises, a retryable error sets `last_error` and,
when attempts remain, fires `on_retry` and sleeps before the next
attempt; when the loop exhausts, the last error is raised. -/
def retryGo (fn : Nat → Outcome) (maxRetries attempt : Nat) : RResult × List REvent :=
  match fn attempt with
  | .ok v => (.returned v, [.calledFn attempt])
  | .err e =>
    if e.retryable then
      if h : attempt < maxRetries then
        let r := retryGo fn maxRetries (attempt + 1)
        (r.1, .calledFn attempt :: .firedOnRetry e attempt :: .slept attempt :: r.2)
      else (.raised e, [.calledFn attempt])
    else (.raised e, [.calledFn attempt])
termination_by maxRetries - attempt
decreasing_by exact Nat.sub_lt_sub_left h (Nat.lt_succ_self attempt)

/-- `retry_with_backoff(fn, config, on_retry)` with
`max_retries = maxRetries`, starting at attempt 0. -/
def retry_with_backoff (fn : Nat → Outcome) (maxRetries : Nat) : RResult × List REvent :=
  retryGo fn maxRetries 0

/-- Number of `fn` invocations in an event trace. -/
def countCalls (evs : List REvent) : Nat :=
  evs.countP fun e => match e with | .calledFn _ => true | _ => false

/-! ## C1/C2/C10: the sandbox runner (runner.py) -/

/-- Values held in the runner's global `NAMESPACE` dictionary. -/
inductive PyVal where
  | pStr (s : String)
  | pStrList (xs : List String)
  | pFinalAnswer (answer : String)
  | pFinalVar (varName : String)
  | pBuiltin (name : String)
deriving DecidableEq, Repr

/-- The global namespace, as an association list. -/
abbrev RNamespace := List (String × PyVal)

/-- `NAMESPACE[k]` lookup (`None`-less `get`). -/
def nsGet (ns : RNamespace) (k : String) : Option PyVal :=
  (ns.find? (fun p => p.1 == k)).map (·.2)

/-- `NAMESPACE.pop(k)` / `del` — remove a binding. -/
def nsErase (ns : RNamespace) (k : String) : RNamespace :=
  ns.filter (fun p => p.1 != k)

/-- `NAMESPACE[k] = v`. -/
def nsSet (ns : RNamespace) (k : String) (v : PyVal) : RNamespace :=
  nsErase ns k ++ [(k, v)]

/-- `exec(code, NAMESPACE)` abstracted: an arbitrary namespace
transformation together with captured stdout, stderr and an optional
exception traceback. -/
structure ExecEffect where
  run : RNamespace → RNamespace × String × String × Option String

/-- A JSON reply object of the runner (fields absent from the dict are
`none`). -/
structure Reply where
  status : String
  stdout : Option String := none
  stderr : Option String := none
  returnValue : Option PyVal := none
  error : Option String := none
  finalAnswer : Option String := none
  finalVar : Option String := none
  finalValue : Option String := none
  message : Option String := none
deriving DecidableEq, Repr

/-- `str()` rendering for `final_value`; only the string case is
exercised by the claims, object renderings are abstracted. -/
def PyVal.pyStr : PyVal → String
  | .pStr s => s
  | .pStrList _ => "<list>"
  | .pFinalAnswer _ => "<FinalAnswer>"
  | .pFinalVar _ => "<FinalVar>"
  | .pBuiltin n => "<function " ++ n ++ ">"

/-- `json.dumps` succeeds only on JSON-encodable values; the sentinel
objects and functions raise `TypeError`. -/
def PyVal.jsonSerializable : PyVal → Bool
  | .pStr _ => true
  | .pStrList _ => true
  | _ => false

/-- Whether `json.dumps(result)` succeeds on a reply dict (only
`return_value` can hold a non-encodable object). -/
def Reply.serializable (r : Reply) : Bool :=
  match r.returnValue with
  | some v => v.jsonSerializable
  | none => true

/-- The `TypeError` message `str(e)` produced by `json.dumps` on a
non-encodable `return_value`. -/
def serializeErrMsg (r : Reply) : String :=
  match r.returnValue with
  | some (.pFinalAnswer _) => "Object of type FinalAnswer is not JSON serializable"
  | some (.pFinalVar _) => "Object of type FinalVar is not JSON serializable"
  | _ => "Object is not JSON serializable"

/-- `execute_code` (runner.py lines 14–47): run the code, capture
output; on success pop `_return_value_` from the namespace into the
result; on exception skip the pop and report the traceback. -/
def execute_code (eff : ExecEffect) (ns : RNamespace) : Reply × RNamespace :=
  let r := eff.run ns
  match r.2.2.2 with
  | some tb =>
    ({ status := "error", stdout := some r.2.1, stderr := some r.2.2.1,
       returnValue := none, error := some tb }, r.1)
  | none =>
    match nsGet r.1 "_return_value_" with
    | some rv =>
      ({ status := "ok", stdout := some r.2.1, stderr := some r.2.2.1,
         returnValue := some rv, error := none }, nsErase r.1 "_return_value_")
    | none =>
      ({ status := "ok", stdout := some r.2.1, stderr := some r.2.2.1,
         returnValue := none, error := none }, r.1)

/-- One parsed stdin line: either invalid JSON or a command object with
optional `action`, `code` and `context` members. -/
inductive InLine where
  | invalid (msg : String)
  | cmd (action : Option String) (code : Option ExecEffect) (context : Option (List String))

/-- How an f-string renders the `action` member. -/
def actionName : Option String → String
  | none => "None"
  | some s => s

/-- `{"status": "error", "error": msg}`. -/
def errReply (msg : String) : Reply := { status := "error", error := some msg }

/-- `{"status": "ok"}`. -/
def okReply : Reply := { status := "ok" }

/-- One iteration of the `for line in sys.stdin` loop of `main`
(runner.py lines 90–122): dispatch on `action`, emit exactly one reply;
`json.dumps` failures and missing keys are caught by the
`except Exception` handler and also emit one error reply. -/
def handleLine (l : InLine) (ns : RNamespace) : Reply × RNamespace :=
  match l with
  | .invalid msg => (errReply ("Invalid JSON: " ++ msg), ns)
  | .cmd action code ctx =>
    if action = some "execute" then
      match code with
      | none => (errReply "'code'", ns)
      | some eff =>
        let rns := execute_code eff ns
        let reply :=
          match nsGet rns.2 "_return_value_" with
          | some (.pFinalAnswer a) => { rns.1 with finalAnswer := some a }
          | some (.pFinalVar v) =>
            { rns.1 with
              finalVar := some v,
              finalValue := some (((nsGet rns.2 v).getD (.pStr "")).pyStr) }
          | _ => rns.1
        if reply.serializable then (reply, rns.2)
        else (errReply (serializeErrMsg reply), rns.2)
    else if action = some "setup" then
      (okReply, nsSet ns "context" (.pStrList (ctx.getD [])))
    else if action = some "ping" then
      ({ status := "ok", message := some "pong" }, ns)
    else
      (errReply ("Unknown action: " ++ actionName action), ns)

/-- The namespace bindings installed by `main` before the loop. -/
def initNamespace : RNamespace :=
  [("llm_query", .pBuiltin "llm_query"), ("FINAL", .pBuiltin "FINAL"),
   ("FINAL_VAR", .pBuiltin "FINAL_VAR"), ("FinalAnswer", .pBuiltin "FinalAnswer"),
   ("FinalVar", .pBuiltin "FinalVar")]

/-- The whole main loop over a list of stdin lines. -/
def runnerMain (ns : RNamespace) : List InLine → List Reply
  | [] => []
  | l :: ls =>
    let rns := handleLine l ns
    rns.1 :: runnerMain rns.2 ls

/-- Code that binds `_return_value_` to a `FinalAnswer` sentinel and
terminates normally (e.g. `_return_value_ = FINAL("…")`). -/
def finalEffect (a : String) : ExecEffect :=
  ⟨fun ns => (nsSet ns "_return_value_" (.pFinalAnswer a), "", "", none)⟩

/-! ## C3: `ContainerExecutor._read_line` (executor.py) -/

/-- `recv` on the attach socket: the next pending chunk, or `b""` when
the connection is closed (modelled as the chunk list running out). -/
def recvChunk : List (List Nat) → List Nat × List (List Nat)
  | [] => ([], [])
  | c :: cs => (c, cs)

/-- Split a byte buffer at the first `\n` (`buffer.split(b"\n", 1)`). -/
def splitAtFirstNL : List Nat → List Nat × List Nat
  | [] => ([], [])
  | b :: rest =>
    if b = 10 then ([], rest)
    else
      let p := splitAtFirstNL rest
      (b :: p.1, p.2)

/-- ASCII whitespace bytes removed by `str.strip()`. -/
def isWsByte (b : Nat) : Bool :=
  b = 9 || b = 10 || b = 11 || b = 12 || b = 13 || b = 32

/-- `line.decode().strip()` on the byte level. -/
def stripBytes (bs : List Nat) : List Nat :=
  ((bs.dropWhile isWsByte).reverse.dropWhile isWsByte).reverse

/-- The `while len(self._read_buffer) < 8` fill loop: recv until the
buffer holds `n` bytes; `Sum.inl` = the connection closed during the
fill (the early-return path), `Sum.inr` = filled. -/
def fillTo (n : Nat) (buf : List Nat) (chunks : List (List Nat)) :
    (List Nat × List (List Nat)) ⊕ (List Nat × List (List Nat)) :=
  if n ≤ buf.length then .inr (buf, chunks)
  else
    match chunks with
    | [] => .inl (buf, [])
    | c :: cs => if c = [] then .inl (buf, cs) else fillTo n (buf ++ c) cs

/-- The `while len(...) < 8 + payload_len` fill loop, which `break`s
(rather than returning) when the connection closes. -/
def fillToBreak (n : Nat) (buf : List Nat) (chunks : List (List Nat)) :
    List Nat × List (List Nat) :=
  if n ≤ buf.length then (buf, chunks)
  else
    match chunks with
    | [] => (buf, [])
    | c :: cs => if c = [] then (buf, cs) else fillToBreak n (buf ++ c) cs

/-- `buffer[0] in (1, 2) and buffer[1:4] == b"\x00\x00\x00"`. -/
def headerLike (buf : List Nat) : Bool :=
  (buf.getD 0 0 = 1 || buf.getD 0 0 = 2) && ((buf.drop 1).take 3 = [0, 0, 0])

/-- Big-endian payload length from `buffer[4:8]`. -/
def payloadLenOf (buf : List Nat) : Nat :=
  ((buf.getD 4 0 * 256 + buf.getD 5 0) * 256 + buf.getD 6 0) * 256 + buf.getD 7 0

/-- `ContainerExecutor._read_line` (executor.py lines 141–205): the
`while True` demultiplexing loop, with explicit fuel for termination.
Returns the stripped line, the remaining buffer and remaining chunks. -/
def readLineLoop : Nat → List Nat → List (List Nat) →
    Option (List Nat × List Nat × List (List Nat))
  | 0, _, _ => none
  | fuel + 1, buf, chunks =>
    if buf.contains 10 then
      let p := splitAtFirstNL buf
      some (stripBytes p.1, p.2, chunks)
    else
      match fillTo 8 buf chunks with
      | .inl (partialBuf, rest) => some (stripBytes partialBuf, [], rest)
      | .inr (buf1, chunks1) =>
        if headerLike buf1 then
          let pl := payloadLenOf buf1
          let bc := fillToBreak (8 + pl) buf1 chunks1
          let payload := (bc.1.drop 8).take pl
          let buf2 := bc.1.drop (8 + pl)
          if payload.contains 10 then
            let p := splitAtFirstNL payload
            some (stripBytes p.1, p.2 ++ buf2, bc.2)
          else
            readLineLoop fuel (payload ++ buf2) bc.2
        else
          if buf1.contains 10 then
            let p := splitAtFirstNL buf1
            some (stripBytes p.1, p.2, chunks1)
          else
            match recvChunk chunks1 with
            | ([], rest) => some (stripBytes buf1, [], rest)
            | (c, cs) => readLineLoop fuel (buf1 ++ c) cs

/-- Two multiplexed frames carrying the logical payload `b"abc"` +
`b"def\n"`: frame 1 has payload `abc` without a newline, frame 2 has
payload `def\n`. -/
def twoFrameChunk : List Nat :=
  [1, 0, 0, 0, 0, 0, 0, 3, 97, 98, 99] ++ [1, 0, 0, 0, 0, 0, 0, 4, 100, 101, 102, 10]

/-! ## C4/C7: citation and quote extraction (verification.py)

Each `_CITATION_PATTERNS` / `_QUOTE_PATTERNS` regex is embedded as a
deterministic matcher applied at one position: it receives the previous
character (for `\b` and the lookarounds) and the remaining text, and
returns the match length plus the captured group.  The regexes only
chain literals and greedy classes whose neighbouring components are
character-disjoint, so maximal munch equals Python's backtracking. -/

/-- Word-character test on an optional neighbouring character
(`\b` next to a word character, `(?<!\w)`, `(?!\w)`). -/
def isWordOpt : Option Char → Bool
  | none => false
  | some c => isWordCh c

/-- `\bDoc\s+\*\*(\d+)\*\*` at one position. -/
def cp1Run (prev : Option Char) (s : List Char) : Option (Nat × Nat) :=
  if isWordOpt prev then none
  else
    match s with
    | 'D' :: 'o' :: 'c' :: rest =>
      if takeWhileLen isSpaceCh rest = 0 then none
      else
        match rest.drop (takeWhileLen isSpaceCh rest) with
        | '*' :: '*' :: r2 =>
          if takeWhileLen isDigitCh r2 = 0 then none
          else
            match r2.drop (takeWhileLen isDigitCh r2) with
            | '*' :: '*' :: _ =>
              some (3 + takeWhileLen isSpaceCh rest + 2 + takeWhileLen isDigitCh r2 + 2,
                digitsToNat (r2.take (takeWhileLen isDigitCh r2)))
            | _ => none
        | _ => none
    | _ => none

/-- `\bDoc\s+(\d+)` at one position. -/
def cp2Run (prev : Option Char) (s : List Char) : Option (Nat × Nat) :=
  if isWordOpt prev then none
  else
    match s with
    | 'D' :: 'o' :: 'c' :: rest =>
      if takeWhileLen isSpaceCh rest = 0 then none
      else
        if takeWhileLen isDigitCh (rest.drop (takeWhileLen isSpaceCh rest)) = 0 then none
        else
          some (3 + takeWhileLen isSpaceCh rest
              + takeWhileLen isDigitCh (rest.drop (takeWhileLen isSpaceCh rest)),
            digitsToNat ((rest.drop (takeWhileLen isSpaceCh rest)).take
              (takeWhileLen isDigitCh (rest.drop (takeWhileLen isSpaceCh rest)))))
    | _ => none

/-- `\bcontext\[(\d+)\]` at one position. -/
def cp3Run (prev : Option Char) (s : List Char) : Option (Nat × Nat) :=
  if isWordOpt prev then none
  else
    match s with
    | 'c' :: 'o' :: 'n' :: 't' :: 'e' :: 'x' :: 't' :: '[' :: rest =>
      if takeWhileLen isDigitCh rest = 0 then none
      else
        match rest.drop (takeWhileLen isDigitCh rest) with
        | ']' :: _ =>
          some (8 + takeWhileLen isDigitCh rest + 1,
            digitsToNat (rest.take (takeWhileLen isDigitCh rest)))
        | _ => none
    | _ => none

/-- `(?<!\w)\*\*(\d+)\*\*(?!\w)` at one position. -/
def cp4Run (prev : Option Char) (s : List Char) : Option (Nat × Nat) :=
  if isWordOpt prev then none
  else
    match s with
    | '*' :: '*' :: rest =>
      if takeWhileLen isDigitCh rest = 0 then none
      else
        match rest.drop (takeWhileLen isDigitCh rest) with
        | '*' :: '*' :: tail =>
          if isWordOpt tail.head? then none
          else
            some (2 + takeWhileLen isDigitCh rest + 2,
              digitsToNat (rest.take (takeWhileLen isDigitCh rest)))
        | _ => none
    | _ => none

/-- `"([^\"]{10,})"` at one position (match length, captured text). -/
def dqRun (_prev : Option Char) (s : List Char) : Option (Nat × List Char) :=
  match s with
  | '"' :: rest =>
    if takeWhileLen (fun c => c != '"') rest < 10 then none
    else
      match rest.drop (takeWhileLen (fun c => c != '"') rest) with
      | '"' :: _ =>
        some (takeWhileLen (fun c => c != '"') rest + 2,
          rest.take (takeWhileLen (fun c => c != '"') rest))
      | _ => none
  | _ => none

/-- The backquote character (U+0060). -/
def backquote : Char := Char.ofNat 96

/-- The backquote analogue of `dqRun` (the second quote pattern). -/
def btRun (_prev : Option Char) (s : List Char) : Option (Nat × List Char) :=
  match s with
  | c :: rest =>
    if c = backquote then
      if takeWhileLen (fun x => x != backquote) rest < 10 then none
      else
        match rest.drop (takeWhileLen (fun x => x != backquote) rest) with
        | c2 :: _ =>
          if c2 = backquote then
            some (takeWhileLen (fun x => x != backquote) rest + 2,
              rest.take (takeWhileLen (fun x => x != backquote) rest))
          else none
        | _ => none
    else none
  | [] => none

/-- `pattern.finditer`: walk the text character by character carrying
the previous character (for the lookbehinds); at each position not
inside an already recorded match, try the matcher; on a match of length
`len`, record `(start, capture)` and skip the remaining `len - 1`
characters (non-overlapping resume at the match end). -/
def findAllAux (m : Option Char → List Char → Option (Nat × α)) :
    Nat → Option Char → List Char → Nat → List (Nat × α)
  | _, _, [], _ => []
  | skip + 1, _, c :: cs, pos => findAllAux m skip (some c) cs (pos + 1)
  | 0, prev, c :: cs, pos =>
    match m prev (c :: cs) with
    | some (len, x) => (pos, x) :: findAllAux m (len - 1) (some c) cs (pos + 1)
    | none => findAllAux m 0 (some c) cs (pos + 1)

/-- All matches of a pattern over a text. -/
def findAll (m : Option Char → List Char → Option (Nat × α)) (s : List Char) :
    List (Nat × α) :=
  findAllAux m 0 none s 0

/-- All `(start, doc_id)` matches across the four citation patterns
(the `matches` list of `extract_citations` before sorting). -/
def citationMatches (s : List Char) : List (Nat × Nat) :=
  findAll cp1Run s ++ findAll cp2Run s ++ findAll cp3Run s ++ findAll cp4Run s

/-- Ascending lexicographic order on `(position, doc_id)` tuples, as
used by `matches.sort()`. -/
def lexLe (x y : Nat × Nat) : Bool :=
  x.1 < y.1 || (x.1 = y.1 && x.2 ≤ y.2)

/-- Ordered insertion for `matches.sort()`. -/
def insertLe (x : Nat × Nat) : List (Nat × Nat) → List (Nat × Nat)
  | [] => [x]
  | y :: ys => if lexLe x y then x :: y :: ys else y :: insertLe x ys

/-- `matches.sort()` (stable; keys are `(position, doc_id)` tuples). -/
def sortMatches (l : List (Nat × Nat)) : List (Nat × Nat) :=
  l.foldr insertLe []

/-- `extract_citations`: collect matches of all patterns with their
positions, sort, then deduplicate doc ids keeping first appearances. -/
def extract_citations (s : List Char) : List Nat :=
  dedupeKeepFirst [] ((sortMatches (citationMatches s)).map (·.2))

/-- The double-quote pattern's captures in match order. -/
def dqTexts (s : List Char) : List (List Char) :=
  (findAll dqRun s).map (·.2)

/-- The backquote pattern's captures in match order. -/
def btTexts (s : List Char) : List (List Char) :=
  (findAll btRun s).map (·.2)

/-- `extract_quotes`: iterate the double-quote pattern's matches, then
the backquote pattern's, deduplicating with one shared `seen` set. -/
def extract_quotes (s : List Char) : List (List Char) :=
  dedupeKeepFirst [] (dqTexts s ++ btTexts s)

/-- Hex digit as produced by Python's `\uXXXX` escapes (lowercase). -/
def hexDigit (n : Nat) : Char :=
  if n < 10 then Char.ofNat (48 + n) else Char.ofNat (87 + n)

/-- Four-digit hex rendering for `\uXXXX`. -/
def hex4 (n : Nat) : List Char :=
  [hexDigit (n / 4096 % 16), hexDigit (n / 256 % 16), hexDigit (n / 16 % 16), hexDigit (n % 16)]

/-- `json.dumps` escaping of one character (`ensure_ascii=True`). -/
def jsonEscapeChar (c : Char) : List Char :=
  if c = '"' then ['\\', '"']
  else if c = '\\' then ['\\', '\\']
  else if c = '\n' then ['\\', 'n']
  else if c.toNat = 13 then ['\\', 'r']
  else if c = '\t' then ['\\', 't']
  else if c.toNat = 8 then ['\\', 'b']
  else if c.toNat = 12 then ['\\', 'f']
  else if c.toNat < 32 then '\\' :: 'u' :: hex4 c.toNat
  else if c.toNat < 127 then [c]
  else if c.toNat < 65536 then '\\' :: 'u' :: hex4 c.toNat
  else
    '\\' :: 'u' :: hex4 (55296 + (c.toNat - 65536) / 1024)
      ++ '\\' :: 'u' :: hex4 (56320 + (c.toNat - 65536) % 1024)

/-- `json.dumps` of a string value. -/
def jsonDumpsStr (cs : List Char) : List Char :=
  '"' :: (cs.map jsonEscapeChar).flatten ++ ['"']

/-- The `lines` list assembled by `build_verification_code` from the
extracted doc ids and the truncated quotes (f-string braces appear
rendered). -/
def verificationLines (docIds : List Nat) (truncated : List (List Char)) : List (List Char) :=
  ["import json".toList, [], "citations = []".toList, "quotes = []".toList]
  ++ docIds.flatMap (fun d =>
      ["try:".toList,
       "    _ = context[".toList ++ natToDigits d ++ "]".toList,
       "    citations.append(\x7b'doc_id': ".toList ++ natToDigits d
         ++ ", 'found': True\x7d)".toList,
       "except (IndexError, NameError):".toList,
       "    citations.append(\x7b'doc_id': ".toList ++ natToDigits d
         ++ ", 'found': False\x7d)".toList])
  ++ truncated.flatMap (fun q =>
      (["_q = ".toList ++ jsonDumpsStr q ++ ".lower()".toList,
        "_found = False".toList,
        "_found_in = -1".toList]
       ++ docIds.flatMap (fun d =>
           ["try:".toList,
            "    if _q in context[".toList ++ natToDigits d ++ "].lower():".toList,
            "        _found = True".toList,
            "        _found_in = ".toList ++ natToDigits d,
            "except (IndexError, NameError):".toList,
            "    pass".toList])
       ++ ["quotes.append(\x7b'text': ".toList ++ jsonDumpsStr q
            ++ ", 'doc_id': _found_in, 'found': _found\x7d)".toList]))
  ++ [[], "print(json.dumps(\x7b'citations': citations, 'quotes': quotes\x7d))".toList]

/-- `build_verification_code`: extract citations and quotes from the
answer, truncate quotes to 60 characters, and join the generated
program lines with newlines. -/
def build_verification_code (answer : List Char) : List Char :=
  joinNL (verificationLines (extract_citations answer)
    ((extract_quotes answer).map (fun q => q.take 60)))

/-- C7 counterexample answer: one double-quoted span whose tail
`**5**x` is no citation in the answer (the `x` fails the `(?!\w)`
lookahead) but whose 60-character truncation ends in `**5**`. -/
def c7answer : List Char :=
  '"' :: (List.replicate 54 'a' ++ " **5**x".toList ++ ['"'])

/-- Spec-side notion for C4: the first appearance position of doc id
`i` across all citation patterns (the sorted match list is ascending,
so `find?` returns the lowest position). -/
def citFirstPos (s : List Char) (i : Nat) : Option Nat :=
  ((sortMatches (citationMatches s)).find? (fun m => m.2 == i)).map (·.1)

/-- Spec-side notion for C4: the first appearance position of a quoted
span across both quote patterns. -/
def quoteFirstPos (s q : List Char) : Option Nat :=
  ((findAll dqRun s ++ findAll btRun s).filterMap
    (fun m => if m.2 = q then some m.1 else none)).min?

/-- C4 counterexample answer: a backtick quote appearing before a
double quote in the text. -/
def c4answer : List Char :=
  "`0123456789ab` and \"zyxwvutsrqpo\"".toList

/-! ## security/redaction.py — `redact` under `RedactionConfig.default()` (C8)

Each compiled pattern of `RedactionConfig.default()` is embedded as a
deterministic anchored matcher `List Char → Option Nat` returning the
length of the (greedy) match of the pattern as a prefix of the input,
or `none`.  Maximal munch is faithful to Python's backtracking search
here because in every pattern each quantified component is
character-class-disjoint from the component that follows it (e.g. `\s+`
is followed by a literal or class containing no whitespace), so no
shorter quantifier choice can succeed where the maximal one fails; and
in the one alternation (pattern 4) the alternatives start with four
distinct letters, so at most one alternative applies at a position. -/

/-- Match a literal: the remainder of `s` after the character-for-character
prefix `L`, or `none`. -/
def dropLit : List Char → List Char → Option (List Char)
  | [], s => some s
  | _ :: _, [] => none
  | l :: ls, c :: cs => if c = l then dropLit ls cs else none

/-- ASCII case-insensitive comparison of a character `c` against a
lowercase reference `l`, as performed under `re.IGNORECASE` (`(?i)`):
equal, or `c` is the uppercase variant of `l`. -/
def eqCI (c l : Char) : Bool :=
  c == l ||
    (c.toNat + 32 == l.toNat && decide (65 ≤ c.toNat) && decide (c.toNat ≤ 90))

/-- Match a literal case-insensitively (`L` is given lowercase). -/
def dropLitCI : List Char → List Char → Option (List Char)
  | [], s => some s
  | _ :: _, [] => none
  | l :: ls, c :: cs => if eqCI c l then dropLitCI ls cs else none

/-- `[a-zA-Z0-9]` (pattern `sk-[a-zA-Z0-9]{20,}`). -/
def isKey1Ch (c : Char) : Bool := c.isAlphanum

/-- `[a-zA-Z0-9-]` (pattern `anthropic-[a-zA-Z0-9-]{20,}`). -/
def isKey2Ch (c : Char) : Bool := c.isAlphanum || c = '-'

/-- `[a-zA-Z0-9._-]` (pattern `Bearer\s+[a-zA-Z0-9._-]{20,}`). -/
def isBearerCh (c : Char) : Bool :=
  c.isAlphanum || c = '.' || c = '_' || c = '-'

/-- `[0-9A-Z]` (pattern `AKIA[0-9A-Z]{16}`). -/
def isAwsCh (c : Char) : Bool :=
  c.isDigit || (decide ('A' ≤ c) && decide (c ≤ 'Z'))

/-- `[a-zA-Z0-9+/]` (pattern `Basic\s+[a-zA-Z0-9+/]{20,}={0,2}`). -/
def isBasicCh (c : Char) : Bool := c.isAlphanum || c = '+' || c = '/'

/-- `sk-[a-zA-Z0-9]{20,}`. -/
def matchSk (s : List Char) : Option Nat :=
  match dropLit ("sk-".toList) s with
  | none => none
  | some r =>
    if 20 ≤ takeWhileLen isKey1Ch r then some (3 + takeWhileLen isKey1Ch r)
    else none

/-- `anthropic-[a-zA-Z0-9-]{20,}`. -/
def matchAnthropic (s : List Char) : Option Nat :=
  match dropLit ("anthropic-".toList) s with
  | none => none
  | some r =>
    if 20 ≤ takeWhileLen isKey2Ch r then some (10 + takeWhileLen isKey2Ch r)
    else none

/-- `Bearer\s+[a-zA-Z0-9._-]{20,}`. -/
def matchBearer (s : List Char) : Option Nat :=
  match dropLit ("Bearer".toList) s with
  | none => none
  | some r =>
    if takeWhileLen isSpaceCh r = 0 then none
    else if 20 ≤ takeWhileLen isBearerCh (r.drop (takeWhileLen isSpaceCh r)) then
      some (6 + takeWhileLen isSpaceCh r +
        takeWhileLen isBearerCh (r.drop (takeWhileLen isSpaceCh r)))
    else none

/-- The `api[_-]?key` alternative of the env-var pattern: the number of
keyword characters matched and the remainder.  A separator character
that is not followed by `key` cannot be rescued by dropping the
separator (`_`/`-` differ from `k`), so the greedy `?` is exact. -/
def matchApiKey (s : List Char) : Option (Nat × List Char) :=
  match dropLitCI ("api".toList) s with
  | none => none
  | some r =>
    match r with
    | [] => none
    | c :: r2 =>
      if c = '_' ∨ c = '-' then
        match dropLitCI ("key".toList) r2 with
        | none => none
        | some r3 => some (7, r3)
      else
        match dropLitCI ("key".toList) (c :: r2) with
        | none => none
        | some r3 => some (6, r3)

/-- The keyword alternation `(api[_-]?key|secret|token|password)` under
`(?i)`, tried in source order.  The four alternatives begin with four
distinct letters, so the first whose keyword matches is the only one
that can; committing to it is equivalent to Python's backtracking. -/
def matchKw (s : List Char) : Option (Nat × List Char) :=
  match matchApiKey s with
  | some x => some x
  | none =>
  match dropLitCI ("secret".toList) s with
  | some r => some (6, r)
  | none =>
  match dropLitCI ("token".toList) s with
  | some r => some (5, r)
  | none =>
  match dropLitCI ("password".toList) s with
  | some r => some (8, r)
  | none => none

/-- `(?i)(api[_-]?key|secret|token|password)\s*[=:]\s*\S+`. -/
def matchEnvVar (s : List Char) : Option Nat :=
  match matchKw s with
  | none => none
  | some (k, r) =>
    match r.drop (takeWhileLen isSpaceCh r) with
    | [] => none
    | c :: r2 =>
      if c = '=' ∨ c = ':' then
        if takeWhileLen (fun d => !isSpaceCh d)
            (r2.drop (takeWhileLen isSpaceCh r2)) = 0 then none
        else
          some (k + takeWhileLen isSpaceCh r + 1 + takeWhileLen isSpaceCh r2 +
            takeWhileLen (fun d => !isSpaceCh d)
              (r2.drop (takeWhileLen isSpaceCh r2)))
      else none

/-- `AKIA[0-9A-Z]{16}` (exactly sixteen class characters: 20 in all). -/
def matchAws (s : List Char) : Option Nat :=
  match dropLit ("AKIA".toList) s with
  | none => none
  | some r => if 16 ≤ takeWhileLen isAwsCh r then some 20 else none

/-- `Basic\s+[a-zA-Z0-9+/]{20,}={0,2}`. -/
def matchBasic (s : List Char) : Option Nat :=
  match dropLit ("Basic".toList) s with
  | none => none
  | some r =>
    if takeWhileLen isSpaceCh r = 0 then none
    else if 20 ≤ takeWhileLen isBasicCh (r.drop (takeWhileLen isSpaceCh r)) then
      some (5 + takeWhileLen isSpaceCh r +
        takeWhileLen isBasicCh (r.drop (takeWhileLen isSpaceCh r)) +
        min (takeWhileLen (fun d => d = '=')
          ((r.drop (takeWhileLen isSpaceCh r)).drop
            (takeWhileLen isBasicCh (r.drop (takeWhileLen isSpaceCh r))))) 2)
    else none

/-- The `\w+\s+PRIVATE\s+KEY-----` tail of the private-key pattern
(split out of `matchPrivKey` for readability): the number of characters
it consumes, or `none`. -/
def privKeyWord (r1 : List Char) : Option Nat :=
  if takeWhileLen isWordCh r1 = 0 then none
  else if takeWhileLen isSpaceCh (r1.drop (takeWhileLen isWordCh r1)) = 0 then none
  else
    match dropLit ("PRIVATE".toList)
        ((r1.drop (takeWhileLen isWordCh r1)).drop
          (takeWhileLen isSpaceCh (r1.drop (takeWhileLen isWordCh r1)))) with
    | none => none
    | some r2 =>
      if takeWhileLen isSpaceCh r2 = 0 then none
      else
        match dropLit ("KEY-----".toList) (r2.drop (takeWhileLen isSpaceCh r2)) with
        | none => none
        | some _ =>
          some (takeWhileLen isWordCh r1 +
            takeWhileLen isSpaceCh (r1.drop (takeWhileLen isWordCh r1)) + 7 +
            takeWhileLen isSpaceCh r2 + 8)

/-- `-----BEGIN\s+\w+\s+PRIVATE\s+KEY-----`. -/
def matchPrivKey (s : List Char) : Option Nat :=
  match dropLit ("-----BEGIN".toList) s with
  | none => none
  | some r =>
    if takeWhileLen isSpaceCh r = 0 then none
    else
      match privKeyWord (r.drop (takeWhileLen isSpaceCh r)) with
      | none => none
      | some tail => some (10 + takeWhileLen isSpaceCh r + tail)

/-- The default placeholder `"[REDACTED]"`. -/
def PH : List Char := "[REDACTED]".toList

/-- `pattern.sub(placeholder, text)`: scan left to right; at a match of
length `len` emit the placeholder and resume after the match (Python's
`re.sub` resumes at `m.end()`; every default pattern consumes at least
one character, so `len ≥ 1`); at a non-match copy one character.  The
first argument counts remaining characters of a match being skipped. -/
def subAux (m : List Char → Option Nat) : Nat → List Char → List Char
  | skip + 1, _ :: cs => subAux m skip cs
  | _ + 1, [] => []
  | 0, [] => []
  | 0, c :: cs =>
    match m (c :: cs) with
    | some len => PH ++ subAux m (len - 1) cs
    | none => c :: subAux m 0 cs

/-- `pattern.sub(placeholder, text)` from the start of `text`. -/
def sub (m : List Char → Option Nat) (s : List Char) : List Char := subAux m 0 s

/-- `redact(text)` with the default configuration: each pattern's `sub`
applied in the order of `RedactionConfig.default().patterns`. -/
def redact (s : List Char) : List Char :=
  sub matchPrivKey (sub matchBasic (sub matchAws (sub matchEnvVar
    (sub matchBearer (sub matchAnthropic (sub matchSk s))))))

/-- `m` has no match anywhere in `s` (at no start position): exactly when
`pattern.sub` leaves `s` unchanged. -/
def noOcc (m : List Char → Option Nat) (s : List Char) : Prop :=
  ∀ i, m (s.drop i) = none

end Shesha

namespace Shesha

/-! ## Theorems -/

/-- C9: `detect_content_type` returns `"code"` iff a strict majority of
the names have a code extension; with exactly half the result is
`"general"`. -/
theorem detect_content_type_strict_majority (names : List (List Char)) :
    (detect_content_type names = "code" ↔ 2 * codeCount names > names.length) ∧
    (2 * codeCount names = names.length → detect_content_type names = "general") := by
  constructor
  · unfold detect_content_type
    split
    · rename_i hemp
      subst hemp
      decide
    · split
      · rename_i h
        exact ⟨fun _ => h, fun _ => rfl⟩
      · rename_i h
        exact ⟨fun hc => absurd hc (by decide), fun hc => absurd hc h⟩
  · intro hhalf
    unfold detect_content_type
    split
    · rfl
    · rw [if_neg (by omega)]

/-- C9 witness: two names, one code file — exactly half — classifies as
`"general"`. -/
theorem detect_content_type_strict_majority_witness :
    2 * codeCount ["a.py".toList, "b.txt".toList] = 2 ∧
    detect_content_type ["a.py".toList, "b.txt".toList] = "general" :=
  ⟨by decide, (detect_content_type_strict_majority _).2 (by decide)⟩

theorem poolStep_inv (size : Nat) (s : PoolState) (op : PoolOp)
    (h : PoolInv s) : PoolInv (poolStep size s op) := by
  obtain ⟨av, iu, st, nx⟩ := s
  obtain ⟨hav, hin, hdisj, havlt, hinlt⟩ := h
  replace hav : av.Nodup := hav
  replace hin : iu.Nodup := hin
  replace hdisj : ∀ x ∈ av, x ∉ iu := hdisj
  replace havlt : ∀ x ∈ av, x < nx := havlt
  replace hinlt : ∀ x ∈ iu, x < nx := hinlt
  cases op with
  | start =>
    cases st with
    | true => exact ⟨hav, hin, hdisj, havlt, hinlt⟩
    | false =>
      refine ⟨?_, hin, ?_, ?_, ?_⟩
      · show (av ++ (List.range size).map (fun i => nx + i)).Nodup
        refine List.Nodup.append hav ((List.nodup_range size).map (fun a b hab => by omega)) ?_
        intro x hx hx2
        simp only [List.mem_map, List.mem_range] at hx2
        obtain ⟨i, _, rfl⟩ := hx2
        have := havlt _ hx
        omega
      · show ∀ x ∈ av ++ (List.range size).map (fun i => nx + i), x ∉ iu
        intro x hx
        rcases List.mem_append.1 hx with h1 | h1
        · exact hdisj x h1
        · simp only [List.mem_map, List.mem_range] at h1
          obtain ⟨i, _, rfl⟩ := h1
          intro hc
          have := hinlt _ hc
          omega
      · show ∀ x ∈ av ++ (List.range size).map (fun i => nx + i), x < nx + size
        intro x hx
        rcases List.mem_append.1 hx with h1 | h1
        · have := havlt x h1; omega
        · simp only [List.mem_map, List.mem_range] at h1
          obtain ⟨i, hi, rfl⟩ := h1
          omega
      · show ∀ x ∈ iu, x < nx + size
        intro x hx
        have := hinlt x hx; omega
  | acquire =>
    cases st with
    | false => exact ⟨hav, hin, hdisj, havlt, hinlt⟩
    | true =>
      cases av with
      | cons e rest =>
        have hav' := hav
        rw [List.nodup_cons] at hav'
        refine ⟨hav'.2, ?_, ?_, ?_, ?_⟩
        · show (iu ++ [e]).Nodup
          refine List.Nodup.append hin (by simp) ?_
          intro x hx hx2
          simp only [List.mem_singleton] at hx2
          subst hx2
          exact hdisj x (by simp) hx
        · show ∀ x ∈ rest, x ∉ iu ++ [e]
          intro x hx hx2
          rcases List.mem_append.1 hx2 with h1 | h1
          · exact hdisj x (by simp [hx]) h1
          · simp only [List.mem_singleton] at h1
            subst h1
            exact hav'.1 hx
        · show ∀ x ∈ rest, x < nx
          intro x hx
          exact havlt x (by simp [hx])
        · show ∀ x ∈ iu ++ [e], x < nx
          intro x hx
          rcases List.mem_append.1 hx with h1 | h1
          · exact hinlt x h1
          · simp only [List.mem_singleton] at h1
            subst h1
            exact havlt x (by simp)
      | nil =>
        refine ⟨hav, ?_, ?_, ?_, ?_⟩
        · show (iu ++ [nx]).Nodup
          refine List.Nodup.append hin (by simp) ?_
          intro x hx hx2
          simp only [List.mem_singleton] at hx2
          subst hx2
          have := hinlt x hx
          omega
        · show ∀ x ∈ ([] : List Nat), x ∉ iu ++ [nx]
          intro x hx
          cases hx
        · show ∀ x ∈ ([] : List Nat), x < nx + 1
          intro x hx
          cases hx
        · show ∀ x ∈ iu ++ [nx], x < nx + 1
          intro x hx
          rcases List.mem_append.1 hx with h1 | h1
          · have := hinlt x h1; omega
          · simp only [List.mem_singleton] at h1
            omega
  | release e =>
    show PoolInv (if e ∈ iu then _ else _)
    by_cases he : e ∈ iu
    · rw [if_pos he]
      refine ⟨?_, hin.erase e, ?_, ?_, ?_⟩
      · show (av ++ [e]).Nodup
        refine List.Nodup.append hav (by simp) ?_
        intro x hx hx2
        simp only [List.mem_singleton] at hx2
        subst hx2
        exact hdisj x hx he
      · show ∀ x ∈ av ++ [e], x ∉ iu.erase e
        intro x hx
        rcases List.mem_append.1 hx with h1 | h1
        · intro hc
          exact hdisj x h1 (List.mem_of_mem_erase hc)
        · simp only [List.mem_singleton] at h1
          subst h1
          exact hin.not_mem_erase
      · show ∀ x ∈ av ++ [e], x < nx
        intro x hx
        rcases List.mem_append.1 hx with h1 | h1
        · exact havlt x h1
        · simp only [List.mem_singleton] at h1
          subst h1
          exact hinlt x he
      · show ∀ x ∈ iu.erase e, x < nx
        intro x hx
        exact hinlt x (List.mem_of_mem_erase hx)
    · rw [if_neg he]
      exact ⟨hav, hin, hdisj, havlt, hinlt⟩
  | discard e =>
    refine ⟨hav, hin.erase e, ?_, havlt, ?_⟩
    · show ∀ x ∈ av, x ∉ iu.erase e
      intro x hx hc
      exact hdisj x hx (List.mem_of_mem_erase hc)
    · show ∀ x ∈ iu.erase e, x < nx
      intro x hx
      exact hinlt x (List.mem_of_mem_erase hx)
  | stop =>
    exact ⟨List.nodup_nil, List.nodup_nil, fun x hx => absurd hx (List.not_mem_nil x),
      fun x hx => absurd hx (List.not_mem_nil x), fun x hx => absurd hx (List.not_mem_nil x)⟩

theorem poolRun_inv (size : Nat) (ops : List PoolOp) : PoolInv (poolRun size ops) := by
  have hbase : PoolInv (⟨[], [], false, 0⟩ : PoolState) :=
    ⟨List.nodup_nil, List.nodup_nil, by simp, by simp, by simp⟩
  unfold poolRun
  generalize hs : (⟨[], [], false, 0⟩ : PoolState) = s0
  rw [hs] at hbase
  clear hs
  induction ops generalizing s0 with
  | nil => exact hbase
  | cons op rest ih =>
    exact ih _ (poolStep_inv size s0 op hbase)

/-- C6: at every point of every operation sequence on a fresh pool, the
available queue and the in-use set are disjoint. -/
theorem pool_available_inUse_disjoint (size : Nat) (ops : List PoolOp) :
    ∀ x, ¬(x ∈ (poolRun size ops).available ∧ x ∈ (poolRun size ops).inUse) := by
  intro x ⟨h1, h2⟩
  exact (poolRun_inv size ops).2.2.1 x h1 h2

@[simp] theorem countCalls_nil : countCalls [] = 0 := rfl

@[simp] theorem countCalls_cons_call (k : Nat) (evs : List REvent) :
    countCalls (.calledFn k :: evs) = countCalls evs + 1 := by
  simp [countCalls, List.countP_cons]

@[simp] theorem countCalls_cons_retry (e : RetryErr) (k : Nat) (evs : List REvent) :
    countCalls (.firedOnRetry e k :: evs) = countCalls evs := by
  simp [countCalls, List.countP_cons]

@[simp] theorem countCalls_cons_slept (k : Nat) (evs : List REvent) :
    countCalls (.slept k :: evs) = countCalls evs := by
  simp [countCalls, List.countP_cons]

theorem retryGo_calls_le (fn : Nat → Outcome) (M : Nat) :
    ∀ a, countCalls (retryGo fn M a).2 ≤ M - a + 1 := by
  intro a
  generalize hk : M - a = k
  induction k generalizing a with
  | zero =>
    rw [retryGo]
    cases hfn : fn a with
    | ok v => simp [countCalls_cons_call]
    | err e =>
      have hnot : ¬ a < M := by omega
      cases he : e.retryable with
      | false => simp [he, countCalls_cons_call]
      | true => simp [he, hnot, countCalls_cons_call]
  | succ k ih =>
    rw [retryGo]
    cases hfn : fn a with
    | ok v => simp [countCalls_cons_call]
    | err e =>
      cases he : e.retryable with
      | false => simp [he, countCalls_cons_call]
      | true =>
        by_cases hlt : a < M
        · have := ih (a + 1) (by omega)
          simp only [he, if_true, hlt, dif_pos, countCalls_cons_call,
            countCalls_cons_retry, countCalls_cons_slept]
          omega
        · simp [he, hlt, countCalls_cons_call]

theorem retryGo_perm (fn : Nat → Outcome) (M : Nat) (k i : Nat)
    (hkM : k ≤ M) (hfn : fn k = .err (.permanentE i)) :
    ∀ a, a ≤ k → (∀ j, a ≤ j → j < k → ∃ e, fn j = .err e ∧ e.retryable = true) →
      (retryGo fn M a).1 = .raised (.permanentE i) ∧
      countCalls (retryGo fn M a).2 = k - a + 1 := by
  intro a
  generalize hd : k - a = d
  induction d generalizing a with
  | zero =>
    intro hak _
    have : a = k := by omega
    subst this
    rw [retryGo]
    simp [hfn, RetryErr.retryable, countCalls_cons_call]
  | succ d ih =>
    intro hak hpre
    have halt : a < k := by omega
    obtain ⟨e, hfe, hre⟩ := hpre a (le_refl a) halt
    have haM : a < M := by omega
    rw [retryGo]
    simp only [hfe, hre, if_true, haM, dif_pos]
    have := ih (a + 1) (by omega) (by omega) (fun j h1 h2 => hpre j (by omega) h2)
    simp only [countCalls_cons_call, countCalls_cons_retry, countCalls_cons_slept]
    exact ⟨this.1, by omega⟩

theorem retryGo_starts_with_call (fn : Nat → Outcome) (M a : Nat) :
    ∃ evs, (retryGo fn M a).2 = REvent.calledFn a :: evs := by
  rw [retryGo]
  cases hfn : fn a with
  | ok v => exact ⟨[], rfl⟩
  | err e =>
    cases he : e.retryable with
    | false => simp [he]
    | true =>
      by_cases hlt : a < M
      · simp [he, hlt]
      · simp [he, hlt]

theorem retryGo_retry_step (fn : Nat → Outcome) (M : Nat) (k : Nat) (e : RetryErr)
    (hkM : k < M) (hfn : fn k = .err e) (hre : e.retryable = true) :
    ∀ a, a ≤ k → (∀ j, a ≤ j → j < k → ∃ e2, fn j = .err e2 ∧ e2.retryable = true) →
      REvent.calledFn (k + 1) ∈ (retryGo fn M a).2 ∧
      List.IsInfix [REvent.firedOnRetry e k, REvent.slept k] (retryGo fn M a).2 := by
  intro a
  generalize hd : k - a = d
  induction d generalizing a with
  | zero =>
    intro hak _
    have : a = k := by omega
    subst this
    rw [retryGo]
    simp only [hfn, hre, if_true, hkM, dif_pos]
    obtain ⟨evs, hevs⟩ := retryGo_starts_with_call fn M (a + 1)
    constructor
    · rw [hevs]
      simp
    · exact ⟨[REvent.calledFn a], (retryGo fn M (a + 1)).2, by simp⟩
  | succ d ih =>
    intro hak hpre
    have halt : a < k := by omega
    obtain ⟨e2, hfe2, hre2⟩ := hpre a (le_refl a) halt
    have haM : a < M := by omega
    rw [retryGo]
    simp only [hfe2, hre2, if_true, haM, dif_pos]
    have := ih (a + 1) (by omega) (by omega) (fun j h1 h2 => hpre j (by omega) h2)
    constructor
    · simp only [List.mem_cons]
      right; right; right
      exact this.1
    · exact this.2.trans (by exact ⟨[REvent.calledFn a, REvent.firedOnRetry e2 a,
        REvent.slept a], [], by simp⟩)

theorem retryGo_exhaust (fn : Nat → Outcome) (M : Nat)
    (hall : ∀ j, j ≤ M → ∃ e, fn j = .err e ∧ e.retryable = true) :
    ∀ a, a ≤ M → ∃ e, fn M = .err e ∧ (retryGo fn M a).1 = .raised e := by
  intro a
  generalize hd : M - a = d
  induction d generalizing a with
  | zero =>
    intro haM
    have heq : a = M := by omega
    obtain ⟨e, hfe, hre⟩ := hall M (le_refl M)
    refine ⟨e, hfe, ?_⟩
    rw [heq, retryGo]
    have hnot : ¬ M < M := by omega
    simp [hfe, hre, hnot]
  | succ d ih =>
    intro haM
    have halt : a < M := by omega
    obtain ⟨e, hfe, hre⟩ := hall a (by omega)
    rw [retryGo]
    simp only [hfe, hre, if_true, halt, dif_pos]
    exact ih (a + 1) (by omega) (by omega)

/-- C5: `retry_with_backoff` invokes `fn` at most `max_retries + 1`
times; a `PermanentError` propagates immediately with no further
attempt; a retryable error below the retry limit fires `on_retry`
directly before the sleep and leads to another attempt; when every
attempt fails with a retryable error, the last error is re-raised. -/
theorem retry_with_backoff_spec (fn : Nat → Outcome) (M : Nat) :
    (countCalls (retry_with_backoff fn M).2 ≤ M + 1) ∧
    (∀ k i, k ≤ M → fn k = Outcome.err (.permanentE i) →
      (∀ j, j < k → ∃ e, fn j = Outcome.err e ∧ e.retryable = true) →
      (retry_with_backoff fn M).1 = .raised (.permanentE i) ∧
      countCalls (retry_with_backoff fn M).2 = k + 1) ∧
    (∀ k e, k < M → fn k = Outcome.err e → e.retryable = true →
      (∀ j, j < k → ∃ e2, fn j = Outcome.err e2 ∧ e2.retryable = true) →
      REvent.calledFn (k + 1) ∈ (retry_with_backoff fn M).2 ∧
      List.IsInfix [REvent.firedOnRetry e k, REvent.slept k] (retry_with_backoff fn M).2) ∧
    ((∀ j, j ≤ M → ∃ e, fn j = Outcome.err e ∧ e.retryable = true) →
      ∃ e, fn M = Outcome.err e ∧ (retry_with_backoff fn M).1 = .raised e) := by
  refine ⟨?_, ?_, ?_, ?_⟩
  · have := retryGo_calls_le fn M 0
    simpa [retry_with_backoff] using this
  · intro k i hkM hfn hpre
    have := retryGo_perm fn M k i hkM hfn 0 (by omega) (fun j _ h2 => hpre j h2)
    simpa [retry_with_backoff] using this
  · intro k e hkM hfn hre hpre
    exact retryGo_retry_step fn M k e hkM hfn hre 0 (by omega) (fun j _ h2 => hpre j h2)
  · intro hall
    exact retryGo_exhaust fn M hall 0 (by omega)

/-- Concrete probe for the retry witness: one transient failure, then a
permanent failure. -/
def retryProbeFn : Nat → Outcome :=
  fun k => if k = 0 then .err (.transientE 0)
           else if k = 1 then .err (.permanentE 1) else .ok 7

/-- C5 witness: with a transient error at attempt 0 and a permanent
error at attempt 1 under `max_retries = 3`, the permanent error is
raised after exactly two calls. -/
theorem retry_with_backoff_spec_witness :
    (retry_with_backoff retryProbeFn 3).1 = .raised (.permanentE 1) ∧
    countCalls (retry_with_backoff retryProbeFn 3).2 = 2 := by
  have h := (retry_with_backoff_spec retryProbeFn 3).2.1 1 1 (by decide) (by decide)
    (by intro j hj; interval_cases j; exact ⟨.transientE 0, by decide, by decide⟩)
  exact h

/-- C1: code that binds the FINAL sentinel to `_return_value_` and
terminates normally yields a reply with NO `final_answer`:
`execute_code` pops `_return_value_` before `main` re-checks the
namespace (so its sentinel branch never fires on success), and
serializing the sentinel left in `return_value` then raises
`TypeError`, so the emitted reply is a serialization error. -/
theorem runner_final_answer_dropped (a : String) :
    nsGet (execute_code (finalEffect a) initNamespace).2 "_return_value_" = none ∧
    (handleLine (.cmd (some "execute") (some (finalEffect a)) none) initNamespace).1.finalAnswer
      = none ∧
    (handleLine (.cmd (some "execute") (some (finalEffect a)) none) initNamespace).1.status
      = "error" ∧
    (handleLine (.cmd (some "execute") (some (finalEffect a)) none) initNamespace).1.error
      = some "Object of type FinalAnswer is not JSON serializable" :=
  ⟨rfl, rfl, rfl, rfl⟩

/-- C2: the runner's `main` has no `reset` branch: `{"action":"reset"}`
is answered with an unknown-action error and the namespace is left
unchanged, contradicting the spec and the runner's own tests. -/
theorem runner_reset_unknown_action (ns : RNamespace) :
    handleLine (.cmd (some "reset") none none) ns
      = ({ status := "error", error := some "Unknown action: reset" }, ns) := rfl

/-- C10: the runner main loop answers an invalid JSON line with exactly
one "Invalid JSON" error reply, an unrecognised action with exactly one
"Unknown action" error reply, and in each case continues with the
subsequent input lines. -/
theorem runner_main_loop_robust :
    (∀ msg ns, handleLine (.invalid msg) ns = (errReply ("Invalid JSON: " ++ msg), ns)) ∧
    (∀ a code ctx ns, a ≠ "execute" → a ≠ "setup" → a ≠ "ping" →
      handleLine (.cmd (some a) code ctx) ns = (errReply ("Unknown action: " ++ a), ns)) ∧
    (∀ ns l ls, runnerMain ns (l :: ls)
      = (handleLine l ns).1 :: runnerMain (handleLine l ns).2 ls) := by
  refine ⟨fun msg ns => rfl, ?_, fun ns l ls => rfl⟩
  intro a code ctx ns h1 h2 h3
  simp only [handleLine]
  rw [if_neg (by simpa using h1), if_neg (by simpa using h2), if_neg (by simpa using h3)]
  rfl

/-- C10 witness: a concrete unknown action gets one error reply and the
loop goes on with the rest of the input. -/
theorem runner_main_loop_robust_witness :
    handleLine (.cmd (some "frobnicate") none none) initNamespace
      = (errReply ("Unknown action: " ++ "frobnicate"), initNamespace) :=
  runner_main_loop_robust.2.1 "frobnicate" none none initNamespace
    (by decide) (by decide) (by decide)

/-- C3: feeding `_read_line` a newline-terminated payload that spans two
frames returns a line with the second frame's 8-byte header embedded in
it instead of the reassembled `abcdef`. -/
theorem read_line_embeds_frame_header :
    readLineLoop 5 [] [twoFrameChunk]
      = some ([97, 98, 99, 1, 0, 0, 0, 0, 0, 0, 4, 100, 101, 102], [], []) ∧
    ([97, 98, 99, 1, 0, 0, 0, 0, 0, 0, 4, 100, 101, 102] : List Nat)
      ≠ [97, 98, 99, 100, 101, 102] := by
  exact ⟨by decide, by decide⟩

theorem takeWhileLen_take (f : Char → Bool) :
    ∀ s : List Char, ∀ c ∈ s.take (takeWhileLen f s), f c = true := by
  intro s
  induction s with
  | nil => simp
  | cons c0 cs ih =>
    simp only [takeWhileLen]
    split
    · rename_i hf
      intro c hc
      rw [List.take_succ_cons] at hc
      rcases List.mem_cons.1 hc with h | h
      · rwa [h]
      · exact ih c h
    · simp

theorem takeWhileLen_append (f : Char → Bool) (ds : List Char) (x : Char) (post : List Char)
    (hds : ∀ c ∈ ds, f c = true) (hx : f x = false) :
    takeWhileLen f (ds ++ x :: post) = ds.length := by
  induction ds with
  | nil => simp [takeWhileLen, hx]
  | cons d dt ih =>
    have hd : f d = true := hds d (by simp)
    rw [List.cons_append]
    simp only [takeWhileLen, hd, if_true, List.length_cons]
    rw [ih (fun c hc => hds c (by simp [hc]))]

theorem takeWhileLen_pos_head (f : Char → Bool) (l : List Char)
    (h : takeWhileLen f l ≠ 0) : ∃ c t, l = c :: t ∧ f c = true := by
  cases l with
  | nil => simp [takeWhileLen] at h
  | cons c t =>
    refine ⟨c, t, rfl, ?_⟩
    by_contra hc
    simp only [takeWhileLen, Bool.not_eq_true] at h hc
    simp [hc] at h

theorem natToDigits_ne_nil (n : Nat) : natToDigits n ≠ [] := by
  rw [natToDigits]
  split <;> simp

theorem natToDigits_digits (n : Nat) : ∀ c ∈ natToDigits n, isDigitCh c = true := by
  induction n using Nat.strong_induction_on with
  | _ n ih =>
    rw [natToDigits]
    split
    · rename_i h
      intro c hc
      simp only [List.mem_singleton] at hc
      subst hc
      interval_cases n <;> decide
    · rename_i h
      intro c hc
      rcases List.mem_append.1 hc with h1 | h1
      · exact ih (n / 10) (Nat.div_lt_self (by omega) (by omega)) c h1
      · simp only [List.mem_singleton] at h1
        subst h1
        have h10 : n % 10 < 10 := Nat.mod_lt _ (by omega)
        generalize hk : n % 10 = k at h10 ⊢
        interval_cases k <;> decide

theorem digitsToNat_append (ds : List Char) (c : Char) :
    digitsToNat (ds ++ [c]) = digitsToNat ds * 10 + (c.toNat - 48) := by
  simp [digitsToNat, List.foldl_append]

theorem toNat_ofNat_digit (k : Nat) (h : k < 10) : (Char.ofNat (48 + k)).toNat = 48 + k := by
  interval_cases k <;> decide

theorem digitsToNat_natToDigits (n : Nat) : digitsToNat (natToDigits n) = n := by
  induction n using Nat.strong_induction_on with
  | _ n ih =>
    rw [natToDigits]
    split
    · rename_i h
      show digitsToNat ([] ++ [Char.ofNat (48 + n)]) = n
      rw [digitsToNat_append, toNat_ofNat_digit n h]
      simp [digitsToNat]
    · rename_i h
      rw [digitsToNat_append, ih (n / 10) (Nat.div_lt_self (by omega) (by omega)),
        toNat_ofNat_digit (n % 10) (Nat.mod_lt _ (by omega))]
      omega

theorem dedupe_sub [DecidableEq α] (seen l : List α) :
    ∀ x ∈ dedupeKeepFirst seen l, x ∈ l := by
  induction l generalizing seen with
  | nil => simp [dedupeKeepFirst]
  | cons y ys ih =>
    intro x hx
    simp only [dedupeKeepFirst] at hx
    split at hx
    · exact List.mem_cons_of_mem y (ih seen x hx)
    · rcases List.mem_cons.1 hx with h | h
      · simp [h]
      · exact List.mem_cons_of_mem y (ih (y :: seen) x h)

theorem dedupe_not_seen [DecidableEq α] (seen l : List α) :
    ∀ x ∈ dedupeKeepFirst seen l, x ∉ seen := by
  induction l generalizing seen with
  | nil => simp [dedupeKeepFirst]
  | cons y ys ih =>
    intro x hx
    simp only [dedupeKeepFirst] at hx
    split at hx
    · exact ih seen x hx
    · rcases List.mem_cons.1 hx with h | h
      · subst h
        assumption
      · intro hc
        exact ih (y :: seen) x h (by simp [hc])

theorem dedupe_nodup [DecidableEq α] (seen l : List α) :
    (dedupeKeepFirst seen l).Nodup := by
  induction l generalizing seen with
  | nil => simp [dedupeKeepFirst]
  | cons y ys ih =>
    simp only [dedupeKeepFirst]
    split
    · exact ih seen
    · refine List.nodup_cons.2 ⟨?_, ih (y :: seen)⟩
      intro hc
      exact dedupe_not_seen (y :: seen) ys y hc (by simp)

theorem dedupe_mem [DecidableEq α] (seen l : List α) (x : α)
    (hx : x ∈ l) (hs : x ∉ seen) : x ∈ dedupeKeepFirst seen l := by
  induction l generalizing seen with
  | nil => cases hx
  | cons y ys ih =>
    simp only [dedupeKeepFirst]
    rcases List.mem_cons.1 hx with h | h
    · subst h
      rw [if_neg hs]
      simp
    · split
      · exact ih seen h hs
      · by_cases hxy : x = y
        · subst hxy
          simp
        · exact List.mem_cons_of_mem y (ih (y :: seen) h (by simp [hs, hxy]))

theorem firstIdx_cons_self [DecidableEq α] (y : α) (ys : List α) :
    firstIdx (y :: ys) y = 0 := by
  simp [firstIdx]

theorem firstIdx_cons_ne [DecidableEq α] (y x : α) (ys : List α) (h : y ≠ x) :
    firstIdx (y :: ys) x = firstIdx ys x + 1 := by
  simp [firstIdx, h]

theorem dedupe_pairwise_firstIdx [DecidableEq α] (seen l : List α) :
    (dedupeKeepFirst seen l).Pairwise (fun a b => firstIdx l a < firstIdx l b) := by
  induction l generalizing seen with
  | nil => simp [dedupeKeepFirst]
  | cons y ys ih =>
    simp only [dedupeKeepFirst]
    split
    · rename_i hy
      refine (ih seen).imp_of_mem ?_
      intro a b ha hb hab
      have hay : a ≠ y := fun hc => (dedupe_not_seen seen ys a ha) (hc ▸ hy)
      have hby : b ≠ y := fun hc => (dedupe_not_seen seen ys b hb) (hc ▸ hy)
      rw [firstIdx_cons_ne y a ys (Ne.symm hay), firstIdx_cons_ne y b ys (Ne.symm hby)]
      omega
    · refine List.pairwise_cons.2 ⟨?_, ?_⟩
      · intro b hb
        have hb2 := dedupe_not_seen (y :: seen) ys b hb
        have hby : b ≠ y := fun hc => hb2 (by simp [hc])
        rw [firstIdx_cons_self, firstIdx_cons_ne y b ys (Ne.symm hby)]
        omega
      · refine (ih (y :: seen)).imp_of_mem ?_
        intro a b ha hb hab
        have hay : a ≠ y := fun hc => (dedupe_not_seen (y :: seen) ys a ha) (by simp [hc])
        have hby : b ≠ y := fun hc => (dedupe_not_seen (y :: seen) ys b hb) (by simp [hc])
        rw [firstIdx_cons_ne y a ys (Ne.symm hay), firstIdx_cons_ne y b ys (Ne.symm hby)]
        omega

theorem insertLe_perm (x : Nat × Nat) (l : List (Nat × Nat)) :
    (insertLe x l).Perm (x :: l) := by
  induction l with
  | nil => exact List.Perm.refl _
  | cons y ys ih =>
    simp only [insertLe]
    split
    · exact List.Perm.refl _
    · exact (List.Perm.cons y ih).trans (List.Perm.swap x y ys)

theorem sortMatches_perm (l : List (Nat × Nat)) : (sortMatches l).Perm l := by
  induction l with
  | nil => exact List.Perm.refl _
  | cons x xs ih =>
    exact (insertLe_perm x (sortMatches xs)).trans (List.Perm.cons x ih)

theorem lexLe_total (x y : Nat × Nat) : lexLe x y = true ∨ lexLe y x = true := by
  simp only [lexLe, Bool.or_eq_true, decide_eq_true_eq, Bool.and_eq_true]
  omega

theorem insertLe_sorted (x : Nat × Nat) (l : List (Nat × Nat))
    (h : l.Pairwise (fun a b => lexLe a b = true)) :
    (insertLe x l).Pairwise (fun a b => lexLe a b = true) := by
  induction l with
  | nil => simp [insertLe]
  | cons y ys ih =>
    simp only [insertLe]
    rw [List.pairwise_cons] at h
    split
    · rename_i hxy
      refine List.pairwise_cons.2 ⟨?_, List.pairwise_cons.2 h⟩
      intro b hb
      rcases List.mem_cons.1 hb with h1 | h1
      · subst h1; exact hxy
      · have hyb := h.1 b h1
        revert hxy hyb
        simp only [lexLe, Bool.or_eq_true, decide_eq_true_eq, Bool.and_eq_true]
        omega
    · rename_i hxy
      have hyx : lexLe y x = true := by
        rcases lexLe_total x y with h1 | h1
        · exact absurd h1 hxy
        · exact h1
      refine List.pairwise_cons.2 ⟨?_, ih h.2⟩
      intro b hb
      have : b ∈ x :: ys := (insertLe_perm x ys).mem_iff.1 hb
      rcases List.mem_cons.1 this with h1 | h1
      · subst h1; exact hyx
      · exact h.1 b h1

theorem sortMatches_sorted (l : List (Nat × Nat)) :
    (sortMatches l).Pairwise (fun a b => lexLe a b = true) := by
  induction l with
  | nil => simp [sortMatches]
  | cons x xs ih => exact insertLe_sorted x (sortMatches xs) ih

theorem joinNL_mem (l : List Char) (lines : List (List Char)) (h : l ∈ lines) :
    ∃ pre post, joinNL lines = pre ++ (l ++ post) := by
  induction lines with
  | nil => cases h
  | cons x ls ih =>
    cases ls with
    | nil =>
      simp only [List.mem_singleton] at h
      subst h
      exact ⟨[], [], by simp [joinNL]⟩
    | cons y ys =>
      rcases List.mem_cons.1 h with h1 | h1
      · subst h1
        exact ⟨[], '\n' :: joinNL (y :: ys), by simp [joinNL]⟩
      · obtain ⟨pre, post, heq⟩ := ih h1
        refine ⟨x ++ '\n' :: pre, post, ?_⟩
        have hj : joinNL (x :: y :: ys) = x ++ '\n' :: joinNL (y :: ys) := rfl
        rw [hj, heq]
        simp

theorem cp3Run_shape (prev : Option Char) (s : List Char) (n i : Nat)
    (h : cp3Run prev s = some (n, i)) :
    ∃ ds t2, s = 'c' :: 'o' :: 'n' :: 't' :: 'e' :: 'x' :: 't' :: '[' :: (ds ++ ']' :: t2) ∧
      ds ≠ [] ∧ (∀ c ∈ ds, isDigitCh c = true) ∧ n = 8 + ds.length + 1 ∧
      i = digitsToNat ds := by
  unfold cp3Run at h
  split at h
  · simp at h
  · split at h
    · rename_i rest
      split at h
      · simp at h
      · split at h
        · rename_i t2 htail
          have hd0 : ¬ takeWhileLen isDigitCh rest = 0 := by assumption
          cases h
          have hle := takeWhileLen_le isDigitCh rest
          have hlen : (rest.take (takeWhileLen isDigitCh rest)).length
              = takeWhileLen isDigitCh rest := by
            simp [List.length_take]
            omega
          refine ⟨rest.take (takeWhileLen isDigitCh rest), t2, ?_, ?_, ?_, ?_, rfl⟩
          · have hta := List.take_append_drop (takeWhileLen isDigitCh rest) rest
            rw [htail] at hta
            rw [hta]
          · intro hc
            rw [hc] at hlen
            simp at hlen
            exact hd0 hlen.symm
          · exact takeWhileLen_take isDigitCh rest
          · rw [hlen]
        · simp at h
    · simp at h

theorem cp3Run_head (prev : Option Char) (s : List Char) (n i : Nat)
    (h : cp3Run prev s = some (n, i)) : ∃ t, s = 'c' :: t := by
  obtain ⟨ds, t2, hs, _⟩ := cp3Run_shape prev s n i h
  exact ⟨_, hs⟩

theorem cp3Run_pos (prev : Option Char) (s : List Char) (n i : Nat)
    (h : cp3Run prev s = some (n, i)) : 1 ≤ n := by
  obtain ⟨ds, t2, hs, hne, hdig, hn, _⟩ := cp3Run_shape prev s n i h
  omega

theorem cp3Run_interior (prev : Option Char) (s : List Char) (n i : Nat)
    (h : cp3Run prev s = some (n, i)) : ∀ x ∈ (s.take n).drop 1, x ≠ 'c' := by
  obtain ⟨ds, t2, hs, hne, hdig, hn, _⟩ := cp3Run_shape prev s n i h
  subst hs
  subst hn
  intro x hx
  have h8 : ('c' :: 'o' :: 'n' :: 't' :: 'e' :: 'x' :: 't' :: '[' :: (ds ++ ']' :: t2))
      = ['c', 'o', 'n', 't', 'e', 'x', 't', '['] ++ (ds ++ ']' :: t2) := rfl
  rw [h8, List.take_append_eq_append_take] at hx
  have hlen8 : (['c', 'o', 'n', 't', 'e', 'x', 't', '['] : List Char).length = 8 := rfl
  rw [List.take_of_length_le (by omega)] at hx
  have harith : 8 + ds.length + 1 - (['c', 'o', 'n', 't', 'e', 'x', 't', '['] :
      List Char).length = ds.length + 1 := by
    rw [hlen8]; omega
  rw [harith, List.take_append_eq_append_take, List.take_of_length_le (by omega)] at hx
  have harith2 : ds.length + 1 - ds.length = 1 := by omega
  rw [harith2] at hx
  simp only [List.take_succ_cons, List.take_zero] at hx
  have hx2 : x ∈ ('o' :: 'n' :: 't' :: 'e' :: 'x' :: 't' :: '[' :: (ds ++ [']'])) := by
    simpa using hx
  rcases List.mem_cons.1 hx2 with h1 | hx3
  · subst h1; decide
  rcases List.mem_cons.1 hx3 with h1 | hx4
  · subst h1; decide
  rcases List.mem_cons.1 hx4 with h1 | hx5
  · subst h1; decide
  rcases List.mem_cons.1 hx5 with h1 | hx6
  · subst h1; decide
  rcases List.mem_cons.1 hx6 with h1 | hx7
  · subst h1; decide
  rcases List.mem_cons.1 hx7 with h1 | hx8
  · subst h1; decide
  rcases List.mem_cons.1 hx8 with h1 | hx9
  · subst h1; decide
  rcases List.mem_append.1 hx9 with h1 | h1
  · have := hdig x h1
    intro hc
    subst hc
    simp [isDigitCh] at this
  · simp only [List.mem_singleton] at h1
    subst h1; decide

theorem getLast?_cons_eq (a0 : Char) (a1 : List Char) :
    (a0 :: a1).getLast? = if a1 = [] then some a0 else a1.getLast? := by
  cases a1 with
  | nil => rfl
  | cons b bs => rw [List.getLast?_cons_cons, if_neg (by simp)]

theorem findAllAux_cp3_complete (s : List Char) :
    ∀ (skip : Nat) (prev : Option Char) (pos : Nat) (a b : List Char) (n i : Nat),
      s = a ++ b →
      (∀ x ∈ s.take skip, x ≠ 'c') →
      cp3Run (if a = [] then prev else a.getLast?) b = some (n, i) →
      i ∈ (findAllAux cp3Run skip prev s pos).map (·.2) := by
  induction s with
  | nil =>
    intro skip prev pos a b n i hs hinv h3
    have hb : b = [] := (List.append_eq_nil.1 hs.symm).2
    subst hb
    obtain ⟨t, ht⟩ := cp3Run_head _ _ _ _ h3
    cases ht
  | cons c0 cs ih =>
    intro skip prev pos a b n i hs hinv h3
    cases skip with
    | succ k =>
      have hc0 : c0 ≠ 'c' := hinv c0 (by simp [List.take_succ_cons])
      cases a with
      | nil =>
        simp only [List.nil_append] at hs
        obtain ⟨t, ht⟩ := cp3Run_head _ _ _ _ h3
        rw [← hs] at ht
        injection ht with h1 _
        exact absurd h1 hc0
      | cons a0 a1 =>
        rw [List.cons_append] at hs
        injection hs with h1 h2
        show i ∈ (findAllAux cp3Run k (some c0) cs (pos + 1)).map (·.2)
        refine ih k (some c0) (pos + 1) a1 b n i h2 ?_ ?_
        · intro x hx
          exact hinv x (by simp [List.take_succ_cons, hx])
        · rw [if_neg (by simp), getLast?_cons_eq] at h3
          subst h1
          exact h3
    | zero =>
      cases hm : cp3Run prev (c0 :: cs) with
      | some val =>
        obtain ⟨len, x⟩ := val
        have heq : findAllAux cp3Run 0 prev (c0 :: cs) pos
            = (pos, x) :: findAllAux cp3Run (len - 1) (some c0) cs (pos + 1) := by
          simp only [findAllAux]
          rw [hm]
        rw [heq]
        cases a with
        | nil =>
          simp only [List.nil_append] at hs
          rw [if_pos rfl, ← hs, hm] at h3
          injection h3 with h3
          injection h3 with _ h3b
          simp [← h3b]
        | cons a0 a1 =>
          rw [List.cons_append] at hs
          injection hs with h1 h2
          simp only [List.map_cons, List.mem_cons]
          right
          refine ih (len - 1) (some c0) (pos + 1) a1 b n i h2 ?_ ?_
          · intro y hy
            have hint := cp3Run_interior prev (c0 :: cs) len x hm
            have hpos := cp3Run_pos prev (c0 :: cs) len x hm
            apply hint
            have hlen : len = (len - 1) + 1 := by omega
            rw [hlen, List.take_succ_cons]
            simpa using hy
          · rw [if_neg (by simp), getLast?_cons_eq] at h3
            subst h1
            exact h3
      | none =>
        have heq : findAllAux cp3Run 0 prev (c0 :: cs) pos
            = findAllAux cp3Run 0 (some c0) cs (pos + 1) := by
          simp only [findAllAux]
          rw [hm]
        rw [heq]
        cases a with
        | nil =>
          simp only [List.nil_append] at hs
          rw [if_pos rfl, ← hs, hm] at h3
          cases h3
        | cons a0 a1 =>
          rw [List.cons_append] at hs
          injection hs with h1 h2
          refine ih 0 (some c0) (pos + 1) a1 b n i h2 (by simp) ?_
          rw [if_neg (by simp), getLast?_cons_eq] at h3
          subst h1
          exact h3

theorem extract_citations_mem_of_matches (g : List Char) (i : Nat)
    (h : i ∈ (citationMatches g).map (·.2)) : i ∈ extract_citations g := by
  unfold extract_citations
  refine dedupe_mem _ _ _ ?_ (by simp)
  exact ((sortMatches_perm (citationMatches g)).map (·.2)).mem_iff.2 h

theorem findAll_cp3_sub_citationMatches (g : List Char) (i : Nat)
    (h : i ∈ (findAll cp3Run g).map (·.2)) : i ∈ (citationMatches g).map (·.2) := by
  unfold citationMatches
  simp only [List.map_append, List.mem_append]
  exact Or.inl (Or.inr h)

theorem toList_context_line_split :
    "    _ = context[".toList
      = "    _ = ".toList ++ ['c', 'o', 'n', 't', 'e', 'x', 't', '['] := by decide

theorem build_code_context_decomp (answer : List Char) (d : Nat)
    (hd : d ∈ extract_citations answer) :
    ∃ pre post, build_verification_code answer
        = pre ++ ('c' :: 'o' :: 'n' :: 't' :: 'e' :: 'x' :: 't' :: '['
            :: (natToDigits d ++ ']' :: post))
      ∧ pre.getLast? = some ' ' := by
  have hline : ("    _ = context[".toList ++ natToDigits d ++ "]".toList)
      ∈ verificationLines (extract_citations answer)
          ((extract_quotes answer).map (fun q => q.take 60)) := by
    unfold verificationLines
    apply List.mem_append.2
    left
    apply List.mem_append.2
    left
    apply List.mem_append.2
    right
    exact List.mem_flatMap.2 ⟨d, hd, by simp⟩
  obtain ⟨pre0, post0, heq⟩ := joinNL_mem _ _ hline
  refine ⟨pre0 ++ "    _ = ".toList, post0, ?_, ?_⟩
  · show build_verification_code answer = _
    unfold build_verification_code
    rw [heq, toList_context_line_split]
    simp
  · rw [List.getLast?_append]
    rfl

theorem cp3Run_at_context (p : Option Char) (hp : isWordOpt p = false) (d : Nat)
    (post : List Char) :
    cp3Run p ('c' :: 'o' :: 'n' :: 't' :: 'e' :: 'x' :: 't' :: '['
        :: (natToDigits d ++ ']' :: post))
      = some (8 + (natToDigits d).length + 1, d) := by
  have htw : takeWhileLen isDigitCh (natToDigits d ++ ']' :: post) = (natToDigits d).length :=
    takeWhileLen_append _ _ _ _ (natToDigits_digits d) (by decide)
  have hnn : (natToDigits d).length ≠ 0 := by
    intro hc
    exact natToDigits_ne_nil d (List.length_eq_zero.1 hc)
  have hdrop : (natToDigits d ++ ']' :: post).drop (takeWhileLen isDigitCh
      (natToDigits d ++ ']' :: post)) = ']' :: post := by
    rw [htw]
    exact List.drop_left _ _
  have htake : (natToDigits d ++ ']' :: post).take (takeWhileLen isDigitCh
      (natToDigits d ++ ']' :: post)) = natToDigits d := by
    rw [htw]
    exact List.take_left _ _
  unfold cp3Run
  rw [if_neg (by simp [hp])]
  show (if takeWhileLen isDigitCh (natToDigits d ++ ']' :: post) = 0 then none
    else match (natToDigits d ++ ']' :: post).drop (takeWhileLen isDigitCh
        (natToDigits d ++ ']' :: post)) with
      | ']' :: _ =>
        some (8 + takeWhileLen isDigitCh (natToDigits d ++ ']' :: post) + 1,
          digitsToNat ((natToDigits d ++ ']' :: post).take (takeWhileLen isDigitCh
            (natToDigits d ++ ']' :: post))))
      | _ => none) = _
  rw [if_neg (by rw [htw]; exact hnn), hdrop, htake, htw, digitsToNat_natToDigits]
  rfl

/-- C7 (amended): the generated verification program embeds at least the
doc ids of the answer: `extract_citations` of
`build_verification_code(A)` is a superset of `extract_citations(A)`.
(Set equality fails: embedded quote text can add citation matches, see
the counterexample.) -/
theorem build_verification_code_citations_superset (answer : List Char) :
    ∀ i, i ∈ extract_citations answer →
      i ∈ extract_citations (build_verification_code answer) := by
  intro i hi
  obtain ⟨pre, post, heq, hlast⟩ := build_code_context_decomp answer i hi
  have hpre_ne : pre ≠ [] := by
    intro hc
    rw [hc] at hlast
    cases hlast
  have hcp3 : cp3Run (if pre = [] then (none : Option Char) else pre.getLast?)
      ('c' :: 'o' :: 'n' :: 't' :: 'e' :: 'x' :: 't' :: '['
        :: (natToDigits i ++ ']' :: post))
      = some (8 + (natToDigits i).length + 1, i) := by
    rw [if_neg hpre_ne, hlast]
    exact cp3Run_at_context (some ' ') (by decide) i post
  have hmem := findAllAux_cp3_complete (build_verification_code answer) 0 none 0 pre
    _ _ _ heq (by simp) hcp3
  exact extract_citations_mem_of_matches _ _ (findAll_cp3_sub_citationMatches _ _ hmem)

/-- C7 witness: the id of `Doc 2` is embedded in the generated program. -/
theorem build_verification_code_citations_superset_witness :
    2 ∈ extract_citations ("See Doc 2.".toList) ∧
    2 ∈ extract_citations (build_verification_code ("See Doc 2.".toList)) :=
  ⟨by decide, build_verification_code_citations_superset _ 2 (by decide)⟩

set_option maxRecDepth 8000 in
/-- C7 counterexample: for the answer `"aaa…a **5**x"` (54 `a`s), the
answer itself has no citations, but the 60-character quote truncation
cuts the `x`, so the generated program contains `**5**` followed by a
non-word character and `extract_citations` finds doc id 5 there. -/
theorem build_verification_code_not_citation_preserving :
    extract_citations c7answer = [] ∧
    extract_citations (build_verification_code c7answer) = [5] :=
  ⟨by decide, by decide⟩

theorem findAllAux_sound {α : Type} (m : Option Char → List Char → Option (Nat × α)) :
    ∀ (s : List Char) (skip : Nat) (prev : Option Char) (pos : Nat) (p : Nat) (x : α),
      (p, x) ∈ findAllAux m skip prev s pos →
      ∃ a b n, s = a ++ b ∧ p = pos + a.length ∧
        m (if a = [] then prev else a.getLast?) b = some (n, x) := by
  intro s
  induction s with
  | nil =>
    intro skip prev pos p x h
    simp [findAllAux] at h
  | cons c0 cs ih =>
    intro skip prev pos p x h
    cases skip with
    | succ k =>
      have heq : findAllAux m (k + 1) prev (c0 :: cs) pos
          = findAllAux m k (some c0) cs (pos + 1) := rfl
      rw [heq] at h
      obtain ⟨a, b, n, hs, hp, hm⟩ := ih k (some c0) (pos + 1) p x h
      refine ⟨c0 :: a, b, n, by rw [hs, List.cons_append], by simp [hp]; omega, ?_⟩
      rw [if_neg (by simp), getLast?_cons_eq]
      exact hm
    | zero =>
      cases hm0 : m prev (c0 :: cs) with
      | some val =>
        obtain ⟨len, x0⟩ := val
        have heq : findAllAux m 0 prev (c0 :: cs) pos
            = (pos, x0) :: findAllAux m (len - 1) (some c0) cs (pos + 1) := by
          simp only [findAllAux]
          rw [hm0]
        rw [heq] at h
        rcases List.mem_cons.1 h with h1 | h1
        · injection h1 with hp hx
          refine ⟨[], c0 :: cs, len, rfl, by simp [hp], ?_⟩
          rw [if_pos rfl, hm0, hx]
        · obtain ⟨a, b, n, hs, hp, hm⟩ := ih (len - 1) (some c0) (pos + 1) p x h1
          refine ⟨c0 :: a, b, n, by rw [hs, List.cons_append], by simp [hp]; omega, ?_⟩
          rw [if_neg (by simp), getLast?_cons_eq]
          exact hm
      | none =>
        have heq : findAllAux m 0 prev (c0 :: cs) pos
            = findAllAux m 0 (some c0) cs (pos + 1) := by
          simp only [findAllAux]
          rw [hm0]
        rw [heq] at h
        obtain ⟨a, b, n, hs, hp, hm⟩ := ih 0 (some c0) (pos + 1) p x h
        refine ⟨c0 :: a, b, n, by rw [hs, List.cons_append], by simp [hp]; omega, ?_⟩
        rw [if_neg (by simp), getLast?_cons_eq]
        exact hm

theorem findAll_sound {α : Type} (m : Option Char → List Char → Option (Nat × α))
    (s : List Char) (p : Nat) (x : α) (h : (p, x) ∈ findAll m s) :
    ∃ a b n, s = a ++ b ∧ p = a.length ∧
      m (if a = [] then none else a.getLast?) b = some (n, x) := by
  obtain ⟨a, b, n, hs, hp, hm⟩ := findAllAux_sound m s 0 none 0 p x h
  exact ⟨a, b, n, hs, by omega, hm⟩

theorem cp1Run_headD (prev : Option Char) (s : List Char) (n i : Nat)
    (h : cp1Run prev s = some (n, i)) : ∃ t, s = 'D' :: t := by
  unfold cp1Run at h
  split at h
  · simp at h
  · split at h
    · exact ⟨_, rfl⟩
    · simp at h

theorem cp2Run_headD (prev : Option Char) (s : List Char) (n i : Nat)
    (h : cp2Run prev s = some (n, i)) : ∃ t, s = 'D' :: t := by
  unfold cp2Run at h
  split at h
  · simp at h
  · split at h
    · exact ⟨_, rfl⟩
    · simp at h

theorem cp4Run_headStar (prev : Option Char) (s : List Char) (n i : Nat)
    (h : cp4Run prev s = some (n, i)) : ∃ t, s = '*' :: t := by
  unfold cp4Run at h
  split at h
  · simp at h
  · split at h
    · exact ⟨_, rfl⟩
    · simp at h

theorem cp1_cp2_incompatible (prev : Option Char) (s : List Char) (n1 i1 n2 i2 : Nat)
    (h1 : cp1Run prev s = some (n1, i1)) (h2 : cp2Run prev s = some (n2, i2)) : False := by
  unfold cp1Run at h1
  split at h1
  · simp at h1
  · split at h1
    · rename_i rest
      split at h1
      · simp at h1
      · split at h1
        · rename_i r2 hstar
          simp only [cp2Run] at h2
          rw [if_neg (by assumption)] at h2
          split at h2
          · simp at h2
          · split at h2
            · simp at h2
            · rename_i hd
              obtain ⟨c, t, hct, hc⟩ := takeWhileLen_pos_head _ _ hd
              rw [hstar] at hct
              injection hct with hc1 _
              rw [← hc1] at hc
              exact absurd hc (by decide)
        · simp at h1
    · simp at h1

theorem citationMatches_same_pos (s : List Char) (p i j : Nat)
    (h1 : (p, i) ∈ citationMatches s) (h2 : (p, j) ∈ citationMatches s) : i = j := by
  have decomp : ∀ (m : Option Char → List Char → Option (Nat × Nat)) (x : Nat),
      (p, x) ∈ findAll m s →
      ∃ a b n, s = a ++ b ∧ p = a.length ∧
        m (if a = [] then none else a.getLast?) b = some (n, x) :=
    fun m x h => findAll_sound m s p x h
  unfold citationMatches at h1 h2
  have key : ∀ (m1 m2 : Option Char → List Char → Option (Nat × Nat)),
      (p, i) ∈ findAll m1 s → (p, j) ∈ findAll m2 s →
      (∀ pc b n1 n2, m1 pc b = some (n1, i) → m2 pc b = some (n2, j) → i = j) → i = j := by
    intro m1 m2 hm1 hm2 hcomp
    obtain ⟨a1, b1, k1, hs1, hp1, hrun1⟩ := decomp m1 i hm1
    obtain ⟨a2, b2, k2, hs2, hp2, hrun2⟩ := decomp m2 j hm2
    have hlen : a1.length = a2.length := by omega
    obtain ⟨ha, hb⟩ := List.append_inj (hs1 ▸ hs2) hlen
    subst ha
    subst hb
    exact hcomp _ _ _ _ hrun1 hrun2
  have cp13 : ∀ pc b n1 n2 x y, cp1Run pc b = some (n1, x) → cp3Run pc b = some (n2, y) →
      False := by
    intro pc b n1 n2 x y hx hy
    obtain ⟨t1, he1⟩ := cp1Run_headD pc b n1 x hx
    obtain ⟨t2, he2⟩ := cp3Run_head pc b n2 y hy
    rw [he1] at he2
    injection he2 with hc _
    exact absurd hc (by decide)
  have cp14 : ∀ pc b n1 n2 x y, cp1Run pc b = some (n1, x) → cp4Run pc b = some (n2, y) →
      False := by
    intro pc b n1 n2 x y hx hy
    obtain ⟨t1, he1⟩ := cp1Run_headD pc b n1 x hx
    obtain ⟨t2, he2⟩ := cp4Run_headStar pc b n2 y hy
    rw [he1] at he2
    injection he2 with hc _
    exact absurd hc (by decide)
  have cp23 : ∀ pc b n1 n2 x y, cp2Run pc b = some (n1, x) → cp3Run pc b = some (n2, y) →
      False := by
    intro pc b n1 n2 x y hx hy
    obtain ⟨t1, he1⟩ := cp2Run_headD pc b n1 x hx
    obtain ⟨t2, he2⟩ := cp3Run_head pc b n2 y hy
    rw [he1] at he2
    injection he2 with hc _
    exact absurd hc (by decide)
  have cp24 : ∀ pc b n1 n2 x y, cp2Run pc b = some (n1, x) → cp4Run pc b = some (n2, y) →
      False := by
    intro pc b n1 n2 x y hx hy
    obtain ⟨t1, he1⟩ := cp2Run_headD pc b n1 x hx
    obtain ⟨t2, he2⟩ := cp4Run_headStar pc b n2 y hy
    rw [he1] at he2
    injection he2 with hc _
    exact absurd hc (by decide)
  have cp34 : ∀ pc b n1 n2 x y, cp3Run pc b = some (n1, x) → cp4Run pc b = some (n2, y) →
      False := by
    intro pc b n1 n2 x y hx hy
    obtain ⟨t1, he1⟩ := cp3Run_head pc b n1 x hx
    obtain ⟨t2, he2⟩ := cp4Run_headStar pc b n2 y hy
    rw [he1] at he2
    injection he2 with hc _
    exact absurd hc (by decide)
  have det : ∀ (m : Option Char → List Char → Option (Nat × Nat)) pc b n1 n2,
      m pc b = some (n1, i) → m pc b = some (n2, j) → i = j := by
    intro m pc b n1 n2 hx hy
    rw [hx] at hy
    cases hy
    rfl
  rcases List.mem_append.1 h1 with h1a | h1d
  · rcases List.mem_append.1 h1a with h1b | h1c
    · rcases List.mem_append.1 h1b with h11 | h12
      · rcases List.mem_append.1 h2 with h2a | h2d
        · rcases List.mem_append.1 h2a with h2b | h2c
          · rcases List.mem_append.1 h2b with h21 | h22
            · exact key _ _ h11 h21 (det cp1Run)
            · exact key _ _ h11 h22 (fun pc b n1 n2 hx hy =>
                absurd (cp1_cp2_incompatible pc b n1 i n2 j hx hy) (by simp))
          · exact key _ _ h11 h2c (fun pc b n1 n2 hx hy =>
              absurd (cp13 pc b n1 n2 i j hx hy) (by simp))
        · exact key _ _ h11 h2d (fun pc b n1 n2 hx hy =>
            absurd (cp14 pc b n1 n2 i j hx hy) (by simp))
      · rcases List.mem_append.1 h2 with h2a | h2d
        · rcases List.mem_append.1 h2a with h2b | h2c
          · rcases List.mem_append.1 h2b with h21 | h22
            · exact key _ _ h12 h21 (fun pc b n1 n2 hx hy =>
                absurd (cp1_cp2_incompatible pc b n2 j n1 i hy hx) (by simp))
            · exact key _ _ h12 h22 (det cp2Run)
          · exact key _ _ h12 h2c (fun pc b n1 n2 hx hy =>
              absurd (cp23 pc b n1 n2 i j hx hy) (by simp))
        · exact key _ _ h12 h2d (fun pc b n1 n2 hx hy =>
            absurd (cp24 pc b n1 n2 i j hx hy) (by simp))
    · rcases List.mem_append.1 h2 with h2a | h2d
      · rcases List.mem_append.1 h2a with h2b | h2c
        · rcases List.mem_append.1 h2b with h21 | h22
          · exact key _ _ h1c h21 (fun pc b n1 n2 hx hy =>
              absurd (cp13 pc b n2 n1 j i hy hx) (by simp))
          · exact key _ _ h1c h22 (fun pc b n1 n2 hx hy =>
              absurd (cp23 pc b n2 n1 j i hy hx) (by simp))
        · exact key _ _ h1c h2c (det cp3Run)
      · exact key _ _ h1c h2d (fun pc b n1 n2 hx hy =>
          absurd (cp34 pc b n1 n2 i j hx hy) (by simp))
  · rcases List.mem_append.1 h2 with h2a | h2d
    · rcases List.mem_append.1 h2a with h2b | h2c
      · rcases List.mem_append.1 h2b with h21 | h22
        · exact key _ _ h1d h21 (fun pc b n1 n2 hx hy =>
            absurd (cp14 pc b n2 n1 j i hy hx) (by simp))
        · exact key _ _ h1d h22 (fun pc b n1 n2 hx hy =>
            absurd (cp24 pc b n2 n1 j i hy hx) (by simp))
      · exact key _ _ h1d h2c (fun pc b n1 n2 hx hy =>
          absurd (cp34 pc b n2 n1 j i hy hx) (by simp))
    · exact key _ _ h1d h2d (det cp4Run)

theorem find?_map_firstIdx (L : List (Nat × Nat)) (a : Nat) (h : a ∈ L.map (·.2)) :
    ∃ e, L.find? (fun m => m.2 == a) = some e ∧ e.2 = a ∧
      L.get? (firstIdx (L.map (·.2)) a) = some e := by
  induction L with
  | nil => simp at h
  | cons y ys ih =>
    by_cases hy : y.2 = a
    · refine ⟨y, ?_, hy, ?_⟩
      · rw [List.find?_cons_of_pos _ (by simp [hy])]
      · rw [List.map_cons, hy, firstIdx_cons_self]
        rfl
    · have ha : a ∈ ys.map (·.2) := by
        rw [List.map_cons] at h
        rcases List.mem_cons.1 h with h1 | h1
        · exact absurd h1.symm hy
        · exact h1
      obtain ⟨e, hf, he2, hg⟩ := ih ha
      refine ⟨e, ?_, he2, ?_⟩
      · rw [List.find?_cons_of_neg _ (by simp [hy])]
        exact hf
      · rw [List.map_cons, firstIdx_cons_ne _ _ _ hy]
        simpa using hg

theorem pairwise_get?_rel {α : Type} {R : α → α → Prop} (L : List α)
    (hp : L.Pairwise R) : ∀ (i j : Nat) (x y : α), i < j →
      L.get? i = some x → L.get? j = some y → R x y := by
  induction L with
  | nil => intro i j x y hij hx hy; simp at hx
  | cons z zs ih =>
    intro i j x y hij hx hy
    rw [List.pairwise_cons] at hp
    cases i with
    | zero =>
      have hxz : x = z := by
        simp only [List.get?] at hx
        injection hx with hx
        exact hx.symm
      cases j with
      | zero => omega
      | succ j2 =>
        have hymem : y ∈ zs := List.get?_mem (by simpa using hy)
        rw [hxz]
        exact hp.1 y hymem
    | succ i2 =>
      cases j with
      | zero => omega
      | succ j2 =>
        exact ih hp.2 i2 j2 x y (by omega) (by simpa using hx) (by simpa using hy)

theorem extract_citations_pairwise_pos (s : List Char) :
    (extract_citations s).Pairwise (fun a b => ∀ pa pb, citFirstPos s a = some pa →
      citFirstPos s b = some pb → pa < pb) := by
  have base := dedupe_pairwise_firstIdx [] ((sortMatches (citationMatches s)).map (·.2))
  refine base.imp_of_mem ?_
  intro a b ha hb hab pa pb hpa hpb
  have haL : a ∈ (sortMatches (citationMatches s)).map (·.2) :=
    dedupe_sub _ _ a ha
  have hbL : b ∈ (sortMatches (citationMatches s)).map (·.2) :=
    dedupe_sub _ _ b hb
  obtain ⟨ea, hfa, hea2, hga⟩ := find?_map_firstIdx _ a haL
  obtain ⟨eb, hfb, heb2, hgb⟩ := find?_map_firstIdx _ b hbL
  have hpa2 : pa = ea.1 := by
    unfold citFirstPos at hpa
    rw [hfa] at hpa
    injection hpa with hpa
    exact hpa.symm
  have hpb2 : pb = eb.1 := by
    unfold citFirstPos at hpb
    rw [hfb] at hpb
    injection hpb with hpb
    exact hpb.symm
  have hlex : lexLe ea eb = true :=
    pairwise_get?_rel _ (sortMatches_sorted (citationMatches s)) _ _ ea eb hab hga hgb
  have hcases : ea.1 < eb.1 ∨ (ea.1 = eb.1 ∧ ea.2 ≤ eb.2) := by
    simpa [lexLe] using hlex
  rcases hcases with hlt | ⟨heq, _⟩
  · omega
  · exfalso
    have hmema : ea ∈ citationMatches s :=
      (sortMatches_perm _).mem_iff.1 (List.get?_mem hga)
    have hmemb : eb ∈ citationMatches s :=
      (sortMatches_perm _).mem_iff.1 (List.get?_mem hgb)
    have hsame : ea.2 = eb.2 := by
      apply citationMatches_same_pos s ea.1
      · simpa [Prod.mk.eta] using hmema
      · rw [heq]
        simpa [Prod.mk.eta] using hmemb
    have hab2 : a = b := by rw [← hea2, ← heb2, hsame]
    rw [hab2] at hab
    omega

/-- C4 (amended): `extract_citations` is deduplicated, returns exactly
the matched doc ids, and is ordered by each id's first match position
across all four citation patterns, as claimed. `extract_quotes` is
deduplicated and returns exactly the captured spans, but is ordered by
pattern precedence — all double-quote matches (in match order) before
the backtick matches — i.e. by first occurrence in the per-pattern
concatenation, not by first appearance position in the answer. -/
theorem extract_citations_quotes_spec (s : List Char) :
    ((extract_citations s).Nodup ∧
      (∀ i, i ∈ extract_citations s ↔ i ∈ (citationMatches s).map (·.2)) ∧
      (extract_citations s).Pairwise (fun a b => ∀ pa pb, citFirstPos s a = some pa →
        citFirstPos s b = some pb → pa < pb)) ∧
    ((extract_quotes s).Nodup ∧
      (∀ q, q ∈ extract_quotes s ↔ q ∈ dqTexts s ++ btTexts s) ∧
      (extract_quotes s).Pairwise (fun q1 q2 =>
        firstIdx (dqTexts s ++ btTexts s) q1 < firstIdx (dqTexts s ++ btTexts s) q2)) := by
  refine ⟨⟨?_, ?_, extract_citations_pairwise_pos s⟩, ?_, ?_, ?_⟩
  · show (dedupeKeepFirst [] ((sortMatches (citationMatches s)).map (·.2))).Nodup
    exact dedupe_nodup _ _
  · intro i
    constructor
    · intro h
      have h2 : i ∈ dedupeKeepFirst [] ((sortMatches (citationMatches s)).map (·.2)) := h
      exact ((sortMatches_perm (citationMatches s)).map (·.2)).mem_iff.1
        (dedupe_sub _ _ i h2)
    · exact extract_citations_mem_of_matches s i
  · show (dedupeKeepFirst [] (dqTexts s ++ btTexts s)).Nodup
    exact dedupe_nodup _ _
  · intro q
    constructor
    · intro h
      have h2 : q ∈ dedupeKeepFirst [] (dqTexts s ++ btTexts s) := h
      exact dedupe_sub _ _ q h2
    · intro h
      show q ∈ dedupeKeepFirst [] (dqTexts s ++ btTexts s)
      exact dedupe_mem _ _ q h (by simp)
  · show (dedupeKeepFirst [] (dqTexts s ++ btTexts s)).Pairwise _
    exact dedupe_pairwise_firstIdx _ _

/-- C4 witness: the amended statement evaluated at a concrete answer. -/
theorem extract_citations_quotes_spec_witness :
    (extract_citations ("See Doc 2 and Doc 1.".toList)).Nodup :=
  (extract_citations_quotes_spec _).1.1

set_option maxRecDepth 8000 in
/-- C4 counterexample: in `` `0123456789ab` and "zyxwvutsrqpo" `` the
backtick quote appears first in the text (position 0, versus 19 for the
double quote), yet `extract_quotes` returns the double-quoted span
first — the order is not first-appearance across both patterns. -/
theorem extract_quotes_not_first_appearance_order :
    extract_quotes c4answer = ["zyxwvutsrqpo".toList, "0123456789ab".toList] ∧
    quoteFirstPos c4answer ("0123456789ab".toList) = some 0 ∧
    quoteFirstPos c4answer ("zyxwvutsrqpo".toList) = some 19 :=
  ⟨by decide, by decide, by decide⟩

/-! ### C8: idempotence of `redact`

Structure of the proof: `sub_decomp` characterises one `pattern.sub`
pass (either no match anywhere, or a first match after a prefix of
failing positions).  For each default pattern we establish five facts:
its matches are nonempty, it fails on the empty text, a match starts
with a non-whitespace character, it fails at every position inside the
placeholder, and a match reaching into a placeholder yields a match
when the placeholder is replaced by any non-whitespace character
(so a match in a substituted text implies one in the original).
`noOcc_sub_self` / `noOcc_sub_other` then show a pass leaves no
occurrence of its own pattern and creates none of any other pattern,
and chaining over the seven patterns gives `redact ∘ redact = redact`. -/

theorem PH_eq : PH = ['[', 'R', 'E', 'D', 'A', 'C', 'T', 'E', 'D', ']'] := rfl

theorem skL : "sk-".toList = ['s', 'k', '-'] := rfl

theorem anthropicL :
    "anthropic-".toList = ['a', 'n', 't', 'h', 'r', 'o', 'p', 'i', 'c', '-'] := rfl

theorem bearerL : "Bearer".toList = ['B', 'e', 'a', 'r', 'e', 'r'] := rfl

theorem apiL : "api".toList = ['a', 'p', 'i'] := rfl

theorem keyL : "key".toList = ['k', 'e', 'y'] := rfl

theorem secretL : "secret".toList = ['s', 'e', 'c', 'r', 'e', 't'] := rfl

theorem tokenL : "token".toList = ['t', 'o', 'k', 'e', 'n'] := rfl

theorem passwordL :
    "password".toList = ['p', 'a', 's', 's', 'w', 'o', 'r', 'd'] := rfl

theorem akiaL : "AKIA".toList = ['A', 'K', 'I', 'A'] := rfl

theorem basicL : "Basic".toList = ['B', 'a', 's', 'i', 'c'] := rfl

theorem beginL :
    "-----BEGIN".toList = ['-', '-', '-', '-', '-', 'B', 'E', 'G', 'I', 'N'] := rfl

theorem privateL : "PRIVATE".toList = ['P', 'R', 'I', 'V', 'A', 'T', 'E'] := rfl

theorem keydL :
    "KEY-----".toList = ['K', 'E', 'Y', '-', '-', '-', '-', '-'] := rfl

theorem subAux_skip (m : List Char → Option Nat) :
    ∀ (s : List Char) (k : Nat), subAux m k s = subAux m 0 (s.drop k) := by
  intro s
  induction s with
  | nil => intro k; cases k <;> rfl
  | cons c cs ih =>
    intro k
    cases k with
    | zero => rfl
    | succ k' =>
      show subAux m k' cs = subAux m 0 ((c :: cs).drop (k' + 1))
      rw [ih k', List.drop_succ_cons]

theorem sub_cons_none (m : List Char → Option Nat) (c : Char) (cs : List Char)
    (h : m (c :: cs) = none) : sub m (c :: cs) = c :: sub m cs := by
  show subAux m 0 (c :: cs) = c :: subAux m 0 cs
  simp only [subAux, h]

theorem sub_cons_some (m : List Char → Option Nat) (c : Char) (cs : List Char) (ℓ : Nat)
    (h : m (c :: cs) = some (ℓ + 1)) : sub m (c :: cs) = PH ++ sub m (cs.drop ℓ) := by
  show subAux m 0 (c :: cs) = PH ++ subAux m 0 (cs.drop ℓ)
  simp only [subAux, h, Nat.add_sub_cancel]
  rw [subAux_skip m cs ℓ]

theorem sub_id_of_noOcc (m : List Char → Option Nat) :
    ∀ s : List Char, noOcc m s → sub m s = s := by
  intro s
  induction s with
  | nil => intro _; rfl
  | cons c cs ih =>
    intro h
    have h0 : m (c :: cs) = none := h 0
    rw [sub_cons_none m c cs h0, ih fun i => h (i + 1)]

theorem noOcc_drop (m : List Char → Option Nat) (s : List Char) (k : Nat)
    (h : noOcc m s) : noOcc m (s.drop k) := by
  intro i
  rw [List.drop_drop]
  exact h (k + i)

theorem sub_decomp (m : List Char → Option Nat)
    (hm1 : ∀ u ℓ, m u = some ℓ → 1 ≤ ℓ) (hnil : m [] = none) :
    ∀ s : List Char,
      (sub m s = s ∧ noOcc m s) ∨
      ∃ g rest ℓ, s = g ++ rest ∧ m rest = some ℓ ∧
        (∀ i, i < g.length → m (s.drop i) = none) ∧
        sub m s = g ++ PH ++ sub m (rest.drop ℓ) := by
  intro s
  induction s with
  | nil =>
    left
    exact ⟨rfl, fun i => by rw [List.drop_nil]; exact hnil⟩
  | cons c cs ih =>
    cases h : m (c :: cs) with
    | some ℓ =>
      right
      refine ⟨[], c :: cs, ℓ, by simp, h, by simp, ?_⟩
      have hℓ := hm1 _ _ h
      cases ℓ with
      | zero => omega
      | succ ℓ' =>
        rw [sub_cons_some m c cs ℓ' h, List.drop_succ_cons, List.nil_append]
    | none =>
      rcases ih with ⟨hs, hno⟩ | ⟨g, rest, ℓ, hcs, hmm, hg, hsub⟩
      · left
        refine ⟨?_, ?_⟩
        · rw [sub_cons_none m c cs h, hs]
        · intro i
          cases i with
          | zero => exact h
          | succ i' => exact hno i'
      · right
        refine ⟨c :: g, rest, ℓ, by rw [hcs, List.cons_append], hmm, ?_, ?_⟩
        · intro i hi
          cases i with
          | zero => exact h
          | succ i' =>
            have hi' : i' < g.length := by
              simpa using Nat.lt_of_succ_lt_succ (by simpa using hi)
            exact hg i' hi'
        · rw [sub_cons_none m c cs h, hsub, List.cons_append, List.cons_append]

theorem takeWhileLen_append_stop (p : Char → Bool) (d : Char) (hd : p d = false) :
    ∀ (a z : List Char), takeWhileLen p (a ++ d :: z) = takeWhileLen p a := by
  intro a z
  induction a with
  | nil => simp [takeWhileLen, hd]
  | cons x a' ih =>
    simp only [List.cons_append, takeWhileLen, List.append_eq]
    rw [ih]

theorem takeWhileLen_le_append (p : Char → Bool) :
    ∀ (a z : List Char), takeWhileLen p a ≤ takeWhileLen p (a ++ z) := by
  intro a z
  induction a with
  | nil => simp [takeWhileLen]
  | cons x a' ih =>
    simp only [List.cons_append, takeWhileLen, List.append_eq]
    cases hx : p x with
    | false => simp [hx]
    | true => simp only [hx, if_true]; omega

theorem dropLit_append_stop (d : Char) :
    ∀ (L u z r : List Char), d ∉ L → dropLit L (u ++ d :: z) = some r →
      ∃ u₂, dropLit L u = some u₂ ∧ r = u₂ ++ d :: z := by
  intro L
  induction L with
  | nil =>
    intro u z r _ h
    simp only [dropLit, Option.some.injEq] at h
    exact ⟨u, rfl, h.symm⟩
  | cons l ls ih =>
    intro u z r hd h
    cases u with
    | nil =>
      simp only [List.nil_append, dropLit] at h
      have hdl : ¬ d = l := fun he => hd (by rw [he]; exact List.mem_cons_self l ls)
      rw [if_neg hdl] at h
      cases h
    | cons a u' =>
      simp only [List.cons_append, dropLit] at h
      by_cases hal : a = l
      · rw [if_pos hal] at h
        obtain ⟨u₂, h1, h2⟩ := ih u' z r (fun hmm => hd (List.mem_cons_of_mem l hmm)) h
        refine ⟨u₂, ?_, h2⟩
        simp only [dropLit, if_pos hal]
        exact h1
      · rw [if_neg hal] at h
        cases h

theorem dropLit_mono :
    ∀ (L u y z : List Char), dropLit L u = some y →
      dropLit L (u ++ z) = some (y ++ z) := by
  intro L
  induction L with
  | nil =>
    intro u y z h
    simp only [dropLit, Option.some.injEq] at h
    simp [dropLit, h]
  | cons l ls ih =>
    intro u y z h
    cases u with
    | nil => simp [dropLit] at h
    | cons a u' =>
      simp only [dropLit] at h
      simp only [List.cons_append, dropLit]
      by_cases hal : a = l
      · rw [if_pos hal] at h ⊢
        exact ih u' y z h
      · rw [if_neg hal] at h
        cases h

theorem dropLitCI_append_stop (d : Char) :
    ∀ (L u z r : List Char), (∀ l ∈ L, eqCI d l = false) →
      dropLitCI L (u ++ d :: z) = some r →
      ∃ u₂, dropLitCI L u = some u₂ ∧ r = u₂ ++ d :: z := by
  intro L
  induction L with
  | nil =>
    intro u z r _ h
    simp only [dropLitCI, Option.some.injEq] at h
    exact ⟨u, rfl, h.symm⟩
  | cons l ls ih =>
    intro u z r hd h
    cases u with
    | nil =>
      simp only [List.nil_append, dropLitCI] at h
      have hdl : ¬ eqCI d l = true := by
        rw [hd l (List.mem_cons_self l ls)]; simp
      rw [if_neg hdl] at h
      cases h
    | cons a u' =>
      simp only [List.cons_append, dropLitCI] at h
      by_cases hal : eqCI a l = true
      · rw [if_pos hal] at h
        obtain ⟨u₂, h1, h2⟩ := ih u' z r (fun x hx => hd x (List.mem_cons_of_mem l hx)) h
        refine ⟨u₂, ?_, h2⟩
        simp only [dropLitCI, if_pos hal]
        exact h1
      · rw [if_neg hal] at h
        cases h

theorem dropLitCI_mono :
    ∀ (L u y z : List Char), dropLitCI L u = some y →
      dropLitCI L (u ++ z) = some (y ++ z) := by
  intro L
  induction L with
  | nil =>
    intro u y z h
    simp only [dropLitCI, Option.some.injEq] at h
    simp [dropLitCI, h]
  | cons l ls ih =>
    intro u y z h
    cases u with
    | nil => simp [dropLitCI] at h
    | cons a u' =>
      simp only [dropLitCI] at h
      simp only [List.cons_append, dropLitCI]
      by_cases hal : eqCI a l = true
      · rw [if_pos hal] at h ⊢
        exact ih u' y z h
      · rw [if_neg hal] at h
        cases h

theorem dropLit_head (l : Char) (ls : List Char) :
    ∀ (s r : List Char), dropLit (l :: ls) s = some r →
      ∃ cs, s = l :: cs ∧ dropLit ls cs = some r := by
  intro s r h
  cases s with
  | nil => simp [dropLit] at h
  | cons c cs =>
    simp only [dropLit] at h
    by_cases hcl : c = l
    · exact ⟨cs, by rw [hcl], by rwa [if_pos hcl] at h⟩
    · rw [if_neg hcl] at h
      cases h

theorem dropLitCI_head (l : Char) (ls : List Char) :
    ∀ (s r : List Char), dropLitCI (l :: ls) s = some r →
      ∃ c cs, s = c :: cs ∧ eqCI c l = true ∧ dropLitCI ls cs = some r := by
  intro s r h
  cases s with
  | nil => simp [dropLitCI] at h
  | cons c cs =>
    simp only [dropLitCI] at h
    by_cases hcl : eqCI c l = true
    · exact ⟨c, cs, rfl, hcl, by rwa [if_pos hcl] at h⟩
    · rw [if_neg hcl] at h
      cases h

theorem eqCI_cases (c l : Char) (h : eqCI c l = true) :
    c = l ∨ (c.toNat + 32 = l.toNat ∧ 65 ≤ c.toNat ∧ c.toNat ≤ 90) := by
  unfold eqCI at h
  simp only [Bool.or_eq_true, Bool.and_eq_true, beq_iff_eq, decide_eq_true_eq] at h
  rcases h with h | ⟨⟨h1, h2⟩, h3⟩
  · exact Or.inl h
  · exact Or.inr ⟨h1, h2, h3⟩

theorem isSpaceCh_toNat (c : Char) (h : isSpaceCh c = true) :
    c.toNat = 32 ∨ c.toNat = 9 ∨ c.toNat = 10 ∨ c.toNat = 13 ∨
      c.toNat = 11 ∨ c.toNat = 12 := by
  unfold isSpaceCh at h
  simp only [Bool.or_eq_true, decide_eq_true_eq] at h
  rcases h with ((((h | h) | h) | h) | h) | h <;> subst h <;> simp

theorem isSpaceCh_false_of_toNat (c : Char) (h : 33 ≤ c.toNat) :
    isSpaceCh c = false := by
  cases hs : isSpaceCh c with
  | false => rfl
  | true =>
    rcases isSpaceCh_toNat c hs with h' | h' | h' | h' | h' | h' <;> omega

theorem eqCI_nonspace (c l : Char) (hl : 97 ≤ l.toNat) (h : eqCI c l = true) :
    isSpaceCh c = false := by
  rcases eqCI_cases c l h with h' | ⟨h1, h2, h3⟩
  · rw [h']
    exact isSpaceCh_false_of_toNat l (by omega)
  · exact isSpaceCh_false_of_toNat c (by omega)

theorem eqCI_unique (c l1 l2 : Char) (h1 : eqCI c l1 = true) (h2 : eqCI c l2 = true)
    (hne : l1.toNat ≠ l2.toNat) (ha : 97 ≤ l1.toNat) (hb : 97 ≤ l2.toNat) : False := by
  rcases eqCI_cases c l1 h1 with e1 | ⟨e1, f1, g1⟩ <;>
    rcases eqCI_cases c l2 h2 with e2 | ⟨e2, f2, g2⟩
  · exact hne (by rw [← e1, ← e2])
  · subst e1; omega
  · subst e2; omega
  · omega

theorem matchSk_pos (u : List Char) (ℓ : Nat) (h : matchSk u = some ℓ) : 1 ≤ ℓ := by
  simp only [matchSk, skL] at h
  cases hd : dropLit ['s', 'k', '-'] u with
  | none => simp [hd] at h
  | some r =>
    simp only [hd] at h
    split at h
    · cases h; omega
    · cases h

theorem matchAnthropic_pos (u : List Char) (ℓ : Nat)
    (h : matchAnthropic u = some ℓ) : 1 ≤ ℓ := by
  simp only [matchAnthropic, anthropicL] at h
  cases hd : dropLit ['a', 'n', 't', 'h', 'r', 'o', 'p', 'i', 'c', '-'] u with
  | none => simp [hd] at h
  | some r =>
    simp only [hd] at h
    split at h
    · cases h; omega
    · cases h

theorem matchBearer_pos (u : List Char) (ℓ : Nat)
    (h : matchBearer u = some ℓ) : 1 ≤ ℓ := by
  simp only [matchBearer, bearerL] at h
  cases hd : dropLit ['B', 'e', 'a', 'r', 'e', 'r'] u with
  | none => simp [hd] at h
  | some r =>
    simp only [hd] at h
    split at h
    · cases h
    · split at h
      · cases h; omega
      · cases h

theorem matchEnvVar_pos (u : List Char) (ℓ : Nat)
    (h : matchEnvVar u = some ℓ) : 1 ≤ ℓ := by
  simp only [matchEnvVar] at h
  cases hkw : matchKw u with
  | none => simp [hkw] at h
  | some kr =>
    obtain ⟨k, r⟩ := kr
    simp only [hkw] at h
    cases hdr : r.drop (takeWhileLen isSpaceCh r) with
    | nil => simp [hdr] at h
    | cons c r2 =>
      simp only [hdr] at h
      split at h
      · split at h
        · cases h
        · cases h; omega
      · cases h

theorem matchAws_pos (u : List Char) (ℓ : Nat) (h : matchAws u = some ℓ) : 1 ≤ ℓ := by
  simp only [matchAws, akiaL] at h
  cases hd : dropLit ['A', 'K', 'I', 'A'] u with
  | none => simp [hd] at h
  | some r =>
    simp only [hd] at h
    split at h
    · cases h; omega
    · cases h

theorem matchBasic_pos (u : List Char) (ℓ : Nat)
    (h : matchBasic u = some ℓ) : 1 ≤ ℓ := by
  simp only [matchBasic, basicL] at h
  cases hd : dropLit ['B', 'a', 's', 'i', 'c'] u with
  | none => simp [hd] at h
  | some r =>
    simp only [hd] at h
    split at h
    · cases h
    · split at h
      · cases h; omega
      · cases h

theorem matchPrivKey_pos (u : List Char) (ℓ : Nat)
    (h : matchPrivKey u = some ℓ) : 1 ≤ ℓ := by
  simp only [matchPrivKey, beginL] at h
  cases hd : dropLit ['-', '-', '-', '-', '-', 'B', 'E', 'G', 'I', 'N'] u with
  | none => simp [hd] at h
  | some r =>
    simp only [hd] at h
    split at h
    · cases h
    · cases hw : privKeyWord (r.drop (takeWhileLen isSpaceCh r)) with
      | none => simp [hw] at h
      | some tail =>
        simp only [hw] at h
        cases h
        omega

theorem matchSk_nil : matchSk [] = none := rfl

theorem matchAnthropic_nil : matchAnthropic [] = none := rfl

theorem matchBearer_nil : matchBearer [] = none := rfl

theorem matchEnvVar_nil : matchEnvVar [] = none := rfl

theorem matchAws_nil : matchAws [] = none := rfl

theorem matchBasic_nil : matchBasic [] = none := rfl

theorem matchPrivKey_nil : matchPrivKey [] = none := rfl

theorem matchSk_start (c : Char) (cs : List Char) (ℓ : Nat)
    (h : matchSk (c :: cs) = some ℓ) : isSpaceCh c = false := by
  simp only [matchSk, skL] at h
  cases hd : dropLit ['s', 'k', '-'] (c :: cs) with
  | none => simp [hd] at h
  | some r =>
    obtain ⟨cs', he, _⟩ := dropLit_head 's' ['k', '-'] (c :: cs) r hd
    injection he with h1 _
    rw [h1]
    decide

theorem matchAnthropic_start (c : Char) (cs : List Char) (ℓ : Nat)
    (h : matchAnthropic (c :: cs) = some ℓ) : isSpaceCh c = false := by
  simp only [matchAnthropic, anthropicL] at h
  cases hd : dropLit ['a', 'n', 't', 'h', 'r', 'o', 'p', 'i', 'c', '-'] (c :: cs) with
  | none => simp [hd] at h
  | some r =>
    obtain ⟨cs', he, _⟩ :=
      dropLit_head 'a' ['n', 't', 'h', 'r', 'o', 'p', 'i', 'c', '-'] (c :: cs) r hd
    injection he with h1 _
    rw [h1]
    decide

theorem matchBearer_start (c : Char) (cs : List Char) (ℓ : Nat)
    (h : matchBearer (c :: cs) = some ℓ) : isSpaceCh c = false := by
  simp only [matchBearer, bearerL] at h
  cases hd : dropLit ['B', 'e', 'a', 'r', 'e', 'r'] (c :: cs) with
  | none => simp [hd] at h
  | some r =>
    obtain ⟨cs', he, _⟩ := dropLit_head 'B' ['e', 'a', 'r', 'e', 'r'] (c :: cs) r hd
    injection he with h1 _
    rw [h1]
    decide

theorem matchKw_head (s : List Char) (k : Nat) (r : List Char)
    (h : matchKw s = some (k, r)) :
    ∃ c cs, s = c :: cs ∧
      (eqCI c 'a' = true ∨ eqCI c 's' = true ∨ eqCI c 't' = true ∨
        eqCI c 'p' = true) := by
  simp only [matchKw] at h
  cases ha : matchApiKey s with
  | some x =>
    simp only [matchApiKey, apiL] at ha
    cases hd : dropLitCI ['a', 'p', 'i'] s with
    | none => simp [hd] at ha
    | some r1 =>
      obtain ⟨c, cs, he, hc, _⟩ := dropLitCI_head 'a' ['p', 'i'] s r1 hd
      exact ⟨c, cs, he, Or.inl hc⟩
  | none =>
    simp only [ha] at h
    cases hs2 : dropLitCI ("secret".toList) s with
    | some r2 =>
      rw [secretL] at hs2
      obtain ⟨c, cs, he, hc, _⟩ := dropLitCI_head 's' ['e', 'c', 'r', 'e', 't'] s r2 hs2
      exact ⟨c, cs, he, Or.inr (Or.inl hc)⟩
    | none =>
      simp only [hs2] at h
      cases ht : dropLitCI ("token".toList) s with
      | some r3 =>
        rw [tokenL] at ht
        obtain ⟨c, cs, he, hc, _⟩ := dropLitCI_head 't' ['o', 'k', 'e', 'n'] s r3 ht
        exact ⟨c, cs, he, Or.inr (Or.inr (Or.inl hc))⟩
      | none =>
        simp only [ht] at h
        cases hp : dropLitCI ['p', 'a', 's', 's', 'w', 'o', 'r', 'd'] s with
        | some r4 =>
          obtain ⟨c, cs, he, hc, _⟩ :=
            dropLitCI_head 'p' ['a', 's', 's', 'w', 'o', 'r', 'd'] s r4 hp
          exact ⟨c, cs, he, Or.inr (Or.inr (Or.inr hc))⟩
        | none => simp [hp] at h

theorem matchEnvVar_start (c : Char) (cs : List Char) (ℓ : Nat)
    (h : matchEnvVar (c :: cs) = some ℓ) : isSpaceCh c = false := by
  simp only [matchEnvVar] at h
  cases hkw : matchKw (c :: cs) with
  | none => simp [hkw] at h
  | some kr =>
    obtain ⟨k, r⟩ := kr
    obtain ⟨c', cs', he, hc⟩ := matchKw_head (c :: cs) k r hkw
    injection he with h1 _
    rw [h1]
    rcases hc with hc | hc | hc | hc
    · exact eqCI_nonspace c' 'a' (by decide) hc
    · exact eqCI_nonspace c' 's' (by decide) hc
    · exact eqCI_nonspace c' 't' (by decide) hc
    · exact eqCI_nonspace c' 'p' (by decide) hc

theorem matchAws_start (c : Char) (cs : List Char) (ℓ : Nat)
    (h : matchAws (c :: cs) = some ℓ) : isSpaceCh c = false := by
  simp only [matchAws, akiaL] at h
  cases hd : dropLit ['A', 'K', 'I', 'A'] (c :: cs) with
  | none => simp [hd] at h
  | some r =>
    obtain ⟨cs', he, _⟩ := dropLit_head 'A' ['K', 'I', 'A'] (c :: cs) r hd
    injection he with h1 _
    rw [h1]
    decide

theorem matchBasic_start (c : Char) (cs : List Char) (ℓ : Nat)
    (h : matchBasic (c :: cs) = some ℓ) : isSpaceCh c = false := by
  simp only [matchBasic, basicL] at h
  cases hd : dropLit ['B', 'a', 's', 'i', 'c'] (c :: cs) with
  | none => simp [hd] at h
  | some r =>
    obtain ⟨cs', he, _⟩ := dropLit_head 'B' ['a', 's', 'i', 'c'] (c :: cs) r hd
    injection he with h1 _
    rw [h1]
    decide

theorem matchPrivKey_start (c : Char) (cs : List Char) (ℓ : Nat)
    (h : matchPrivKey (c :: cs) = some ℓ) : isSpaceCh c = false := by
  simp only [matchPrivKey, beginL] at h
  cases hd : dropLit ['-', '-', '-', '-', '-', 'B', 'E', 'G', 'I', 'N'] (c :: cs) with
  | none => simp [hd] at h
  | some r =>
    obtain ⟨cs', he, _⟩ :=
      dropLit_head '-' ['-', '-', '-', '-', 'B', 'E', 'G', 'I', 'N'] (c :: cs) r hd
    injection he with h1 _
    rw [h1]
    decide

theorem matchSk_ph (i : Nat) (hi : i < PH.length) (w : List Char) :
    matchSk (PH.drop i ++ w) = none := by
  have h10 : i < 10 := hi
  interval_cases i <;> simp +decide [PH_eq, matchSk, skL, dropLit]

theorem matchAnthropic_ph (i : Nat) (hi : i < PH.length) (w : List Char) :
    matchAnthropic (PH.drop i ++ w) = none := by
  have h10 : i < 10 := hi
  interval_cases i <;> simp +decide [PH_eq, matchAnthropic, anthropicL, dropLit]

theorem matchBearer_ph (i : Nat) (hi : i < PH.length) (w : List Char) :
    matchBearer (PH.drop i ++ w) = none := by
  have h10 : i < 10 := hi
  interval_cases i <;> simp +decide [PH_eq, matchBearer, bearerL, dropLit]

theorem matchEnvVar_ph (i : Nat) (hi : i < PH.length) (w : List Char) :
    matchEnvVar (PH.drop i ++ w) = none := by
  have h10 : i < 10 := hi
  interval_cases i <;>
    simp +decide [PH_eq, matchEnvVar, matchKw, matchApiKey, apiL, keyL,
      secretL, tokenL, passwordL, dropLitCI, eqCI]

theorem matchAws_ph (i : Nat) (hi : i < PH.length) (w : List Char) :
    matchAws (PH.drop i ++ w) = none := by
  have h10 : i < 10 := hi
  interval_cases i <;> simp +decide [PH_eq, matchAws, akiaL, dropLit]

theorem matchBasic_ph (i : Nat) (hi : i < PH.length) (w : List Char) :
    matchBasic (PH.drop i ++ w) = none := by
  have h10 : i < 10 := hi
  interval_cases i <;> simp +decide [PH_eq, matchBasic, basicL, dropLit]

theorem matchPrivKey_ph (i : Nat) (hi : i < PH.length) (w : List Char) :
    matchPrivKey (PH.drop i ++ w) = none := by
  have h10 : i < 10 := hi
  interval_cases i <;> simp +decide [PH_eq, matchPrivKey, beginL, dropLit]

theorem drop_append_le (a b : List Char) (n : Nat) (h : n ≤ a.length) :
    (a ++ b).drop n = a.drop n ++ b := by
  rw [List.drop_append_eq_append_drop, Nat.sub_eq_zero_of_le h, List.drop_zero]

theorem isSpaceCh_char (c : Char) (h : isSpaceCh c = true) :
    c = ' ' ∨ c = '\t' ∨ c = '\n' ∨ c = '\x0d' ∨ c = '\x0b' ∨ c = '\x0c' := by
  unfold isSpaceCh at h
  simp only [Bool.or_eq_true, decide_eq_true_eq] at h
  tauto

theorem isWordCh_of_space (c : Char) (h : isSpaceCh c = true) : isWordCh c = false := by
  rcases isSpaceCh_char c h with h | h | h | h | h | h <;> subst h <;> decide

theorem ph_split (u v : List Char) :
    u ++ PH ++ v =
      u ++ '[' :: 'R' :: 'E' :: 'D' :: 'A' :: 'C' :: 'T' :: 'E' :: 'D' :: ']' :: v := by
  rw [PH_eq, List.append_assoc]
  rfl

theorem matchSk_div (u : List Char) (c : Char) (vs v : List Char)
    (_hns : isSpaceCh c = false)
    (hnone : matchSk (u ++ c :: vs) = none) : matchSk (u ++ PH ++ v) = none := by
  cases h2 : matchSk (u ++ PH ++ v) with
  | none => rfl
  | some ℓ =>
    exfalso
    rw [ph_split] at h2
    simp only [matchSk, skL] at h2
    cases hd : dropLit ['s', 'k', '-']
        (u ++ '[' :: 'R' :: 'E' :: 'D' :: 'A' :: 'C' :: 'T' :: 'E' :: 'D' :: ']' :: v) with
    | none => simp [hd] at h2
    | some r =>
      simp only [hd] at h2
      obtain ⟨u₂, hu₂, hr⟩ := dropLit_append_stop '[' ['s', 'k', '-'] u _ r (by decide) hd
      subst hr
      rw [takeWhileLen_append_stop isKey1Ch '[' (by decide) u₂ _] at h2
      split at h2
      · rename_i h20
        have hd' : dropLit ['s', 'k', '-'] (u ++ c :: vs) = some (u₂ ++ c :: vs) :=
          dropLit_mono _ u u₂ (c :: vs) hu₂
        have h20' : 20 ≤ takeWhileLen isKey1Ch (u₂ ++ c :: vs) :=
          le_trans h20 (takeWhileLen_le_append _ u₂ (c :: vs))
        have hbuilt : matchSk (u ++ c :: vs) =
            some (3 + takeWhileLen isKey1Ch (u₂ ++ c :: vs)) := by
          simp only [matchSk, skL, hd', if_pos h20']
        rw [hnone] at hbuilt
        cases hbuilt
      · cases h2

theorem matchAnthropic_div (u : List Char) (c : Char) (vs v : List Char)
    (_hns : isSpaceCh c = false)
    (hnone : matchAnthropic (u ++ c :: vs) = none) :
    matchAnthropic (u ++ PH ++ v) = none := by
  cases h2 : matchAnthropic (u ++ PH ++ v) with
  | none => rfl
  | some ℓ =>
    exfalso
    rw [ph_split] at h2
    simp only [matchAnthropic, anthropicL] at h2
    cases hd : dropLit ['a', 'n', 't', 'h', 'r', 'o', 'p', 'i', 'c', '-']
        (u ++ '[' :: 'R' :: 'E' :: 'D' :: 'A' :: 'C' :: 'T' :: 'E' :: 'D' :: ']' :: v) with
    | none => simp [hd] at h2
    | some r =>
      simp only [hd] at h2
      obtain ⟨u₂, hu₂, hr⟩ := dropLit_append_stop '['
        ['a', 'n', 't', 'h', 'r', 'o', 'p', 'i', 'c', '-'] u _ r (by decide) hd
      subst hr
      rw [takeWhileLen_append_stop isKey2Ch '[' (by decide) u₂ _] at h2
      split at h2
      · rename_i h20
        have hd' : dropLit ['a', 'n', 't', 'h', 'r', 'o', 'p', 'i', 'c', '-']
            (u ++ c :: vs) = some (u₂ ++ c :: vs) :=
          dropLit_mono _ u u₂ (c :: vs) hu₂
        have h20' : 20 ≤ takeWhileLen isKey2Ch (u₂ ++ c :: vs) :=
          le_trans h20 (takeWhileLen_le_append _ u₂ (c :: vs))
        have hbuilt : matchAnthropic (u ++ c :: vs) =
            some (10 + takeWhileLen isKey2Ch (u₂ ++ c :: vs)) := by
          simp only [matchAnthropic, anthropicL, hd', if_pos h20']
        rw [hnone] at hbuilt
        cases hbuilt
      · cases h2

theorem matchAws_div (u : List Char) (c : Char) (vs v : List Char)
    (_hns : isSpaceCh c = false)
    (hnone : matchAws (u ++ c :: vs) = none) : matchAws (u ++ PH ++ v) = none := by
  cases h2 : matchAws (u ++ PH ++ v) with
  | none => rfl
  | some ℓ =>
    exfalso
    rw [ph_split] at h2
    simp only [matchAws, akiaL] at h2
    cases hd : dropLit ['A', 'K', 'I', 'A']
        (u ++ '[' :: 'R' :: 'E' :: 'D' :: 'A' :: 'C' :: 'T' :: 'E' :: 'D' :: ']' :: v) with
    | none => simp [hd] at h2
    | some r =>
      simp only [hd] at h2
      obtain ⟨u₂, hu₂, hr⟩ :=
        dropLit_append_stop '[' ['A', 'K', 'I', 'A'] u _ r (by decide) hd
      subst hr
      rw [takeWhileLen_append_stop isAwsCh '[' (by decide) u₂ _] at h2
      split at h2
      · rename_i h16
        have hd' : dropLit ['A', 'K', 'I', 'A'] (u ++ c :: vs) = some (u₂ ++ c :: vs) :=
          dropLit_mono _ u u₂ (c :: vs) hu₂
        have h16' : 16 ≤ takeWhileLen isAwsCh (u₂ ++ c :: vs) :=
          le_trans h16 (takeWhileLen_le_append _ u₂ (c :: vs))
        have hbuilt : matchAws (u ++ c :: vs) = some 20 := by
          simp only [matchAws, akiaL, hd', if_pos h16']
        rw [hnone] at hbuilt
        cases hbuilt
      · cases h2

theorem matchBearer_div (u : List Char) (c : Char) (vs v : List Char)
    (hns : isSpaceCh c = false)
    (hnone : matchBearer (u ++ c :: vs) = none) :
    matchBearer (u ++ PH ++ v) = none := by
  cases h2 : matchBearer (u ++ PH ++ v) with
  | none => rfl
  | some ℓ =>
    exfalso
    rw [ph_split] at h2
    simp only [matchBearer, bearerL] at h2
    cases hd : dropLit ['B', 'e', 'a', 'r', 'e', 'r']
        (u ++ '[' :: 'R' :: 'E' :: 'D' :: 'A' :: 'C' :: 'T' :: 'E' :: 'D' :: ']' :: v) with
    | none => simp [hd] at h2
    | some r =>
      simp only [hd] at h2
      obtain ⟨u₂, hu₂, hr⟩ :=
        dropLit_append_stop '[' ['B', 'e', 'a', 'r', 'e', 'r'] u _ r (by decide) hd
      subst hr
      rw [takeWhileLen_append_stop isSpaceCh '[' (by decide) u₂ _] at h2
      rw [drop_append_le u₂ _ (takeWhileLen isSpaceCh u₂) (takeWhileLen_le _ u₂)] at h2
      rw [takeWhileLen_append_stop isBearerCh '[' (by decide)
        (u₂.drop (takeWhileLen isSpaceCh u₂)) _] at h2
      split at h2
      · cases h2
      · rename_i hsp
        split at h2
        · rename_i h20
          have hd' : dropLit ['B', 'e', 'a', 'r', 'e', 'r'] (u ++ c :: vs) =
              some (u₂ ++ c :: vs) := dropLit_mono _ u u₂ (c :: vs) hu₂
          have hsp' : takeWhileLen isSpaceCh (u₂ ++ c :: vs) =
              takeWhileLen isSpaceCh u₂ :=
            takeWhileLen_append_stop isSpaceCh c hns u₂ vs
          have hdr' : (u₂ ++ c :: vs).drop (takeWhileLen isSpaceCh u₂) =
              u₂.drop (takeWhileLen isSpaceCh u₂) ++ c :: vs :=
            drop_append_le u₂ _ _ (takeWhileLen_le _ u₂)
          have h20' : 20 ≤ takeWhileLen isBearerCh
              (u₂.drop (takeWhileLen isSpaceCh u₂) ++ c :: vs) :=
            le_trans h20 (takeWhileLen_le_append _ _ _)
          have hbuilt : matchBearer (u ++ c :: vs) ≠ none := by
            simp only [matchBearer, bearerL, hd']
            rw [hsp', hdr', if_neg hsp, if_pos h20']
            simp
          exact hbuilt hnone
        · cases h2

theorem matchBasic_div (u : List Char) (c : Char) (vs v : List Char)
    (hns : isSpaceCh c = false)
    (hnone : matchBasic (u ++ c :: vs) = none) :
    matchBasic (u ++ PH ++ v) = none := by
  cases h2 : matchBasic (u ++ PH ++ v) with
  | none => rfl
  | some ℓ =>
    exfalso
    rw [ph_split] at h2
    simp only [matchBasic, basicL] at h2
    cases hd : dropLit ['B', 'a', 's', 'i', 'c']
        (u ++ '[' :: 'R' :: 'E' :: 'D' :: 'A' :: 'C' :: 'T' :: 'E' :: 'D' :: ']' :: v) with
    | none => simp [hd] at h2
    | some r =>
      simp only [hd] at h2
      obtain ⟨u₂, hu₂, hr⟩ :=
        dropLit_append_stop '[' ['B', 'a', 's', 'i', 'c'] u _ r (by decide) hd
      subst hr
      rw [takeWhileLen_append_stop isSpaceCh '[' (by decide) u₂ _] at h2
      rw [drop_append_le u₂ _ (takeWhileLen isSpaceCh u₂) (takeWhileLen_le _ u₂)] at h2
      rw [takeWhileLen_append_stop isBasicCh '[' (by decide)
        (u₂.drop (takeWhileLen isSpaceCh u₂)) _] at h2
      split at h2
      · cases h2
      · rename_i hsp
        split at h2
        · rename_i h20
          have hd' : dropLit ['B', 'a', 's', 'i', 'c'] (u ++ c :: vs) =
              some (u₂ ++ c :: vs) := dropLit_mono _ u u₂ (c :: vs) hu₂
          have hsp' : takeWhileLen isSpaceCh (u₂ ++ c :: vs) =
              takeWhileLen isSpaceCh u₂ :=
            takeWhileLen_append_stop isSpaceCh c hns u₂ vs
          have hdr' : (u₂ ++ c :: vs).drop (takeWhileLen isSpaceCh u₂) =
              u₂.drop (takeWhileLen isSpaceCh u₂) ++ c :: vs :=
            drop_append_le u₂ _ _ (takeWhileLen_le _ u₂)
          have h20' : 20 ≤ takeWhileLen isBasicCh
              (u₂.drop (takeWhileLen isSpaceCh u₂) ++ c :: vs) :=
            le_trans h20 (takeWhileLen_le_append _ _ _)
          have hbuilt : matchBasic (u ++ c :: vs) ≠ none := by
            simp only [matchBasic, basicL, hd']
            rw [hsp', hdr', if_neg hsp, if_pos h20']
            simp
          exact hbuilt hnone
        · cases h2

theorem takeWhileLen_stable (f : Char → Bool) :
    ∀ p : List Char, takeWhileLen f p < p.length →
      ∀ z, takeWhileLen f (p ++ z) = takeWhileLen f p := by
  intro p
  induction p with
  | nil => intro h; simp [takeWhileLen] at h
  | cons x p' ih =>
    intro h z
    simp only [takeWhileLen, List.length_cons, List.cons_append, List.append_eq] at h ⊢
    cases hx : f x with
    | false => simp [hx]
    | true =>
      rw [hx] at h
      simp only [if_true] at h ⊢
      rw [ih (by omega) z]

theorem privKeyWord_div (p : List Char) (c : Char) (z vs : List Char)
    (hns : isSpaceCh c = false) (tail : Nat)
    (h : privKeyWord (p ++ '[' :: z) = some tail) :
    privKeyWord (p ++ c :: vs) ≠ none := by
  have hw0 : takeWhileLen isWordCh (p ++ '[' :: z) = takeWhileLen isWordCh p :=
    takeWhileLen_append_stop isWordCh '[' (by decide) p _
  simp only [privKeyWord, privateL, keydL] at h
  rw [hw0] at h
  rw [drop_append_le p _ (takeWhileLen isWordCh p) (takeWhileLen_le _ p)] at h
  rw [takeWhileLen_append_stop isSpaceCh '[' (by decide)
    (p.drop (takeWhileLen isWordCh p)) _] at h
  rw [drop_append_le (p.drop (takeWhileLen isWordCh p)) _
    (takeWhileLen isSpaceCh (p.drop (takeWhileLen isWordCh p)))
    (takeWhileLen_le _ _)] at h
  split at h
  · cases h
  · rename_i hw
    split at h
    · cases h
    · rename_i hs2
      cases hp : dropLit ['P', 'R', 'I', 'V', 'A', 'T', 'E']
          ((p.drop (takeWhileLen isWordCh p)).drop
            (takeWhileLen isSpaceCh (p.drop (takeWhileLen isWordCh p))) ++
              '[' :: z) with
      | none =>
        rw [hp] at h
        simp at h
      | some r2 =>
        simp only [hp] at h
        obtain ⟨u₄, hu₄, hr2⟩ :=
          dropLit_append_stop '[' ['P', 'R', 'I', 'V', 'A', 'T', 'E'] _ z r2
            (by decide) hp
        subst hr2
        rw [takeWhileLen_append_stop isSpaceCh '[' (by decide) u₄ z] at h
        split at h
        · cases h
        · rename_i hs3
          rw [drop_append_le u₄ _ (takeWhileLen isSpaceCh u₄)
            (takeWhileLen_le _ _)] at h
          cases hk : dropLit ['K', 'E', 'Y', '-', '-', '-', '-', '-']
              (u₄.drop (takeWhileLen isSpaceCh u₄) ++ '[' :: z) with
          | none =>
            rw [hk] at h
            simp at h
          | some r5 =>
            obtain ⟨u₅, hu₅, _⟩ :=
              dropLit_append_stop '[' ['K', 'E', 'Y', '-', '-', '-', '-', '-'] _ z r5
                (by decide) hk
            obtain ⟨d, t, hdt, hd_sp⟩ :=
              takeWhileLen_pos_head isSpaceCh (p.drop (takeWhileLen isWordCh p)) hs2
            have hwlt : takeWhileLen isWordCh p < p.length := by
              by_contra hge
              have hnil : p.drop (takeWhileLen isWordCh p) = [] :=
                List.drop_eq_nil_of_le (Nat.le_of_not_lt hge)
              rw [hdt] at hnil
              cases hnil
            have hw' : takeWhileLen isWordCh (p ++ c :: vs) = takeWhileLen isWordCh p :=
              takeWhileLen_stable isWordCh p hwlt (c :: vs)
            have hdrop' : (p ++ c :: vs).drop (takeWhileLen isWordCh p) =
                p.drop (takeWhileLen isWordCh p) ++ c :: vs :=
              drop_append_le p _ _ (takeWhileLen_le _ p)
            have hs2' : takeWhileLen isSpaceCh (p.drop (takeWhileLen isWordCh p) ++ c :: vs) =
                takeWhileLen isSpaceCh (p.drop (takeWhileLen isWordCh p)) :=
              takeWhileLen_append_stop isSpaceCh c hns _ vs
            have hdrop2' : (p.drop (takeWhileLen isWordCh p) ++ c :: vs).drop
                (takeWhileLen isSpaceCh (p.drop (takeWhileLen isWordCh p))) =
                (p.drop (takeWhileLen isWordCh p)).drop
                  (takeWhileLen isSpaceCh (p.drop (takeWhileLen isWordCh p))) ++ c :: vs :=
              drop_append_le _ _ _ (takeWhileLen_le _ _)
            have hp' : dropLit ['P', 'R', 'I', 'V', 'A', 'T', 'E']
                ((p.drop (takeWhileLen isWordCh p)).drop
                  (takeWhileLen isSpaceCh (p.drop (takeWhileLen isWordCh p))) ++
                    c :: vs) = some (u₄ ++ c :: vs) :=
              dropLit_mono _ _ u₄ (c :: vs) hu₄
            have hs3' : takeWhileLen isSpaceCh (u₄ ++ c :: vs) =
                takeWhileLen isSpaceCh u₄ :=
              takeWhileLen_append_stop isSpaceCh c hns u₄ vs
            have hdrop3' : (u₄ ++ c :: vs).drop (takeWhileLen isSpaceCh u₄) =
                u₄.drop (takeWhileLen isSpaceCh u₄) ++ c :: vs :=
              drop_append_le u₄ _ _ (takeWhileLen_le _ _)
            have hk' : dropLit ['K', 'E', 'Y', '-', '-', '-', '-', '-']
                (u₄.drop (takeWhileLen isSpaceCh u₄) ++ c :: vs) =
                some (u₅ ++ c :: vs) :=
              dropLit_mono _ _ u₅ (c :: vs) hu₅
            simp only [privKeyWord, privateL, keydL]
            rw [hw', hdrop', hs2', hdrop2', if_neg hw, if_neg hs2]
            simp only [hp']
            rw [hs3', hdrop3', if_neg hs3]
            simp only [hk']
            simp

theorem matchPrivKey_div (u : List Char) (c : Char) (vs v : List Char)
    (hns : isSpaceCh c = false)
    (hnone : matchPrivKey (u ++ c :: vs) = none) :
    matchPrivKey (u ++ PH ++ v) = none := by
  cases h2 : matchPrivKey (u ++ PH ++ v) with
  | none => rfl
  | some ℓ =>
    exfalso
    rw [ph_split] at h2
    simp only [matchPrivKey, beginL] at h2
    cases hd : dropLit ['-', '-', '-', '-', '-', 'B', 'E', 'G', 'I', 'N']
        (u ++ '[' :: 'R' :: 'E' :: 'D' :: 'A' :: 'C' :: 'T' :: 'E' :: 'D' :: ']' :: v) with
    | none => simp [hd] at h2
    | some r =>
      simp only [hd] at h2
      obtain ⟨u₂, hu₂, hr⟩ := dropLit_append_stop '['
        ['-', '-', '-', '-', '-', 'B', 'E', 'G', 'I', 'N'] u _ r (by decide) hd
      subst hr
      rw [takeWhileLen_append_stop isSpaceCh '[' (by decide) u₂ _] at h2
      split at h2
      · cases h2
      · rename_i hs1
        rw [drop_append_le u₂ _ (takeWhileLen isSpaceCh u₂) (takeWhileLen_le _ u₂)] at h2
        cases hpw : privKeyWord (u₂.drop (takeWhileLen isSpaceCh u₂) ++
            '[' :: 'R' :: 'E' :: 'D' :: 'A' :: 'C' :: 'T' :: 'E' :: 'D' :: ']' :: v) with
        | none => simp [hpw] at h2
        | some tail =>
          have hne := privKeyWord_div (u₂.drop (takeWhileLen isSpaceCh u₂)) c
            ('R' :: 'E' :: 'D' :: 'A' :: 'C' :: 'T' :: 'E' :: 'D' :: ']' :: v) vs
            hns tail hpw
          have hd3 : dropLit ['-', '-', '-', '-', '-', 'B', 'E', 'G', 'I', 'N']
              (u ++ c :: vs) = some (u₂ ++ c :: vs) :=
            dropLit_mono _ u u₂ (c :: vs) hu₂
          have hs1' : takeWhileLen isSpaceCh (u₂ ++ c :: vs) =
              takeWhileLen isSpaceCh u₂ :=
            takeWhileLen_append_stop isSpaceCh c hns u₂ vs
          have hdr : (u₂ ++ c :: vs).drop (takeWhileLen isSpaceCh u₂) =
              u₂.drop (takeWhileLen isSpaceCh u₂) ++ c :: vs :=
            drop_append_le u₂ _ _ (takeWhileLen_le _ u₂)
          cases hpw2 : privKeyWord (u₂.drop (takeWhileLen isSpaceCh u₂) ++ c :: vs) with
          | none => exact hne hpw2
          | some t2 =>
            have hbuilt : matchPrivKey (u ++ c :: vs) =
                some (10 + takeWhileLen isSpaceCh u₂ + t2) := by
              simp only [matchPrivKey, beginL, hd3]
              rw [hs1', hdr, if_neg hs1, hpw2]
            rw [hnone] at hbuilt
            cases hbuilt

theorem matchApiKey_div (u z : List Char) (k : Nat) (r : List Char)
    (h : matchApiKey (u ++ '[' :: z) = some (k, r)) :
    ∃ u₂, r = u₂ ++ '[' :: z ∧ ∀ t, matchApiKey (u ++ t) = some (k, u₂ ++ t) := by
  simp only [matchApiKey, apiL, keyL] at h
  cases hd : dropLitCI ['a', 'p', 'i'] (u ++ '[' :: z) with
  | none =>
    rw [hd] at h
    simp at h
  | some r1 =>
    simp only [hd] at h
    obtain ⟨u₁, hu₁, hr1⟩ := dropLitCI_append_stop '[' ['a', 'p', 'i'] u z r1 (by decide) hd
    subst hr1
    cases u₁ with
    | nil =>
      simp only [List.nil_append] at h
      simp +decide [dropLitCI, eqCI] at h
    | cons d u₁' =>
      simp only [List.cons_append] at h
      split at h
      · rename_i hsep
        cases hk2 : dropLitCI ['k', 'e', 'y'] (u₁' ++ '[' :: z) with
        | none =>
          rw [hk2] at h
          simp at h
        | some r3 =>
          simp only [hk2] at h
          cases h
          obtain ⟨u₂, hu₂, hr3⟩ :=
            dropLitCI_append_stop '[' ['k', 'e', 'y'] u₁' z r (by decide) hk2
          refine ⟨u₂, hr3, ?_⟩
          intro t
          have hmono1 : dropLitCI ['a', 'p', 'i'] (u ++ t) = some ((d :: u₁') ++ t) :=
            dropLitCI_mono _ u (d :: u₁') t hu₁
          rw [List.cons_append] at hmono1
          have hmono2 : dropLitCI ['k', 'e', 'y'] (u₁' ++ t) = some (u₂ ++ t) :=
            dropLitCI_mono _ u₁' u₂ t hu₂
          simp only [matchApiKey, apiL, keyL, hmono1, if_pos hsep, hmono2]
      · rename_i hsep
        cases hk2 : dropLitCI ['k', 'e', 'y'] (d :: (u₁' ++ '[' :: z)) with
        | none =>
          rw [hk2] at h
          simp at h
        | some r3 =>
          simp only [hk2] at h
          cases h
          have hk2' : dropLitCI ['k', 'e', 'y'] ((d :: u₁') ++ '[' :: z) = some r := by
            rwa [List.cons_append]
          obtain ⟨u₂, hu₂, hr3⟩ :=
            dropLitCI_append_stop '[' ['k', 'e', 'y'] (d :: u₁') z r (by decide) hk2'
          refine ⟨u₂, hr3, ?_⟩
          intro t
          have hmono1 : dropLitCI ['a', 'p', 'i'] (u ++ t) = some ((d :: u₁') ++ t) :=
            dropLitCI_mono _ u (d :: u₁') t hu₁
          rw [List.cons_append] at hmono1
          have hmono2 : dropLitCI ['k', 'e', 'y'] ((d :: u₁') ++ t) = some (u₂ ++ t) :=
            dropLitCI_mono _ (d :: u₁') u₂ t hu₂
          rw [List.cons_append] at hmono2
          simp only [matchApiKey, apiL, keyL, hmono1, if_neg hsep, hmono2]

theorem matchKw_div (u z : List Char) (k : Nat) (r : List Char)
    (h : matchKw (u ++ '[' :: z) = some (k, r)) :
    ∃ u₂, r = u₂ ++ '[' :: z ∧ ∀ t, matchKw (u ++ t) = some (k, u₂ ++ t) := by
  simp only [matchKw, secretL, tokenL, passwordL] at h
  cases ha : matchApiKey (u ++ '[' :: z) with
  | some x =>
    simp only [ha] at h
    cases h
    obtain ⟨u₂, hru, happ⟩ := matchApiKey_div u z k r ha
    refine ⟨u₂, hru, ?_⟩
    intro t
    simp only [matchKw, happ t]
  | none =>
    simp only [ha] at h
    cases hs : dropLitCI ['s', 'e', 'c', 'r', 'e', 't'] (u ++ '[' :: z) with
    | some r2 =>
      simp only [hs] at h
      cases h
      obtain ⟨u₂, hu₂, hr⟩ :=
        dropLitCI_append_stop '[' ['s', 'e', 'c', 'r', 'e', 't'] u z r (by decide) hs
      obtain ⟨c₀, u', hu, hc₀, _⟩ := dropLitCI_head 's' ['e', 'c', 'r', 'e', 't'] u u₂ hu₂
      have hA : eqCI c₀ 'a' = false := by
        cases hb : eqCI c₀ 'a' with
        | false => rfl
        | true =>
          exact (eqCI_unique c₀ 'a' 's' hb hc₀ (by decide) (by decide) (by decide)).elim
      have hapi : ∀ X, matchApiKey (c₀ :: X) = none := by
        intro X
        have h1 : dropLitCI ['a', 'p', 'i'] (c₀ :: X) = none := by
          simp [dropLitCI, hA]
        simp [matchApiKey, apiL, h1]
      refine ⟨u₂, hr, ?_⟩
      intro t
      subst hu
      have hmono : dropLitCI ['s', 'e', 'c', 'r', 'e', 't'] ((c₀ :: u') ++ t) =
          some (u₂ ++ t) := dropLitCI_mono _ (c₀ :: u') u₂ t hu₂
      rw [List.cons_append] at hmono
      simp only [matchKw, secretL, List.cons_append, hapi (u' ++ t), hmono]
    | none =>
      simp only [hs] at h
      cases ht : dropLitCI ['t', 'o', 'k', 'e', 'n'] (u ++ '[' :: z) with
      | some r3 =>
        simp only [ht] at h
        cases h
        obtain ⟨u₂, hu₂, hr⟩ :=
          dropLitCI_append_stop '[' ['t', 'o', 'k', 'e', 'n'] u z r (by decide) ht
        obtain ⟨c₀, u', hu, hc₀, _⟩ := dropLitCI_head 't' ['o', 'k', 'e', 'n'] u u₂ hu₂
        have hA : eqCI c₀ 'a' = false := by
          cases hb : eqCI c₀ 'a' with
          | false => rfl
          | true =>
            exact (eqCI_unique c₀ 'a' 't' hb hc₀ (by decide) (by decide) (by decide)).elim
        have hS : eqCI c₀ 's' = false := by
          cases hb : eqCI c₀ 's' with
          | false => rfl
          | true =>
            exact (eqCI_unique c₀ 's' 't' hb hc₀ (by decide) (by decide) (by decide)).elim
        have hapi : ∀ X, matchApiKey (c₀ :: X) = none := by
          intro X
          have h1 : dropLitCI ['a', 'p', 'i'] (c₀ :: X) = none := by
            simp [dropLitCI, hA]
          simp [matchApiKey, apiL, h1]
        have hsec : ∀ X, dropLitCI ['s', 'e', 'c', 'r', 'e', 't'] (c₀ :: X) = none := by
          intro X
          simp [dropLitCI, hS]
        refine ⟨u₂, hr, ?_⟩
        intro t
        subst hu
        have hmono : dropLitCI ['t', 'o', 'k', 'e', 'n'] ((c₀ :: u') ++ t) =
            some (u₂ ++ t) := dropLitCI_mono _ (c₀ :: u') u₂ t hu₂
        rw [List.cons_append] at hmono
        simp only [matchKw, secretL, tokenL, List.cons_append, hapi (u' ++ t),
          hsec (u' ++ t), hmono]
      | none =>
        simp only [ht] at h
        cases hp : dropLitCI ['p', 'a', 's', 's', 'w', 'o', 'r', 'd'] (u ++ '[' :: z) with
        | some r4 =>
          simp only [hp] at h
          cases h
          obtain ⟨u₂, hu₂, hr⟩ :=
            dropLitCI_append_stop '[' ['p', 'a', 's', 's', 'w', 'o', 'r', 'd'] u z r
              (by decide) hp
          obtain ⟨c₀, u', hu, hc₀, _⟩ :=
            dropLitCI_head 'p' ['a', 's', 's', 'w', 'o', 'r', 'd'] u u₂ hu₂
          have hA : eqCI c₀ 'a' = false := by
            cases hb : eqCI c₀ 'a' with
            | false => rfl
            | true =>
              exact (eqCI_unique c₀ 'a' 'p' hb hc₀ (by decide) (by decide) (by decide)).elim
          have hS : eqCI c₀ 's' = false := by
            cases hb : eqCI c₀ 's' with
            | false => rfl
            | true =>
              exact (eqCI_unique c₀ 's' 'p' hb hc₀ (by decide) (by decide) (by decide)).elim
          have hT : eqCI c₀ 't' = false := by
            cases hb : eqCI c₀ 't' with
            | false => rfl
            | true =>
              exact (eqCI_unique c₀ 't' 'p' hb hc₀ (by decide) (by decide) (by decide)).elim
          have hapi : ∀ X, matchApiKey (c₀ :: X) = none := by
            intro X
            have h1 : dropLitCI ['a', 'p', 'i'] (c₀ :: X) = none := by
              simp [dropLitCI, hA]
            simp [matchApiKey, apiL, h1]
          have hsec : ∀ X, dropLitCI ['s', 'e', 'c', 'r', 'e', 't'] (c₀ :: X) = none := by
            intro X
            simp [dropLitCI, hS]
          have htok : ∀ X, dropLitCI ['t', 'o', 'k', 'e', 'n'] (c₀ :: X) = none := by
            intro X
            simp [dropLitCI, hT]
          refine ⟨u₂, hr, ?_⟩
          intro t
          subst hu
          have hmono : dropLitCI ['p', 'a', 's', 's', 'w', 'o', 'r', 'd'] ((c₀ :: u') ++ t) =
              some (u₂ ++ t) := dropLitCI_mono _ (c₀ :: u') u₂ t hu₂
          rw [List.cons_append] at hmono
          simp only [matchKw, secretL, tokenL, passwordL, List.cons_append,
            hapi (u' ++ t), hsec (u' ++ t), htok (u' ++ t), hmono]
        | none =>
          rw [hp] at h
          simp at h

theorem matchEnvVar_div (u : List Char) (c : Char) (vs v : List Char)
    (hns : isSpaceCh c = false)
    (hnone : matchEnvVar (u ++ c :: vs) = none) :
    matchEnvVar (u ++ PH ++ v) = none := by
  cases h2 : matchEnvVar (u ++ PH ++ v) with
  | none => rfl
  | some ℓ =>
    exfalso
    rw [ph_split] at h2
    simp only [matchEnvVar] at h2
    cases hkw : matchKw
        (u ++ '[' :: 'R' :: 'E' :: 'D' :: 'A' :: 'C' :: 'T' :: 'E' :: 'D' :: ']' :: v) with
    | none =>
      rw [hkw] at h2
      simp at h2
    | some kr =>
      obtain ⟨k, r⟩ := kr
      simp only [hkw] at h2
      obtain ⟨u₂, hru, hkwt⟩ :=
        matchKw_div u ('R' :: 'E' :: 'D' :: 'A' :: 'C' :: 'T' :: 'E' :: 'D' :: ']' :: v)
          k r hkw
      subst hru
      rw [takeWhileLen_append_stop isSpaceCh '[' (by decide) u₂ _] at h2
      rw [drop_append_le u₂ _ _ (takeWhileLen_le _ u₂)] at h2
      cases hds : u₂.drop (takeWhileLen isSpaceCh u₂) with
      | nil =>
        rw [hds] at h2
        simp +decide at h2
      | cons e u₃ =>
        rw [hds] at h2
        simp only [List.cons_append] at h2
        split at h2
        · rename_i hee
          rw [takeWhileLen_append_stop isSpaceCh '[' (by decide) u₃ _] at h2
          rw [drop_append_le u₃ _ _ (takeWhileLen_le _ u₃)] at h2
          split at h2
          · cases h2
          · rename_i hn0
            have hn0' : ¬ (takeWhileLen (fun d => !isSpaceCh d)
                (u₃.drop (takeWhileLen isSpaceCh u₃) ++ c :: vs) = 0) := by
              cases hu3d : u₃.drop (takeWhileLen isSpaceCh u₃) with
              | nil => simp [takeWhileLen, hns]
              | cons f t =>
                rw [hu3d] at hn0
                rw [List.cons_append] at hn0
                obtain ⟨f', t', hft, hf⟩ := takeWhileLen_pos_head _ _ hn0
                injection hft with hf1 _
                rw [List.cons_append]
                subst hf1
                simp [takeWhileLen, hf]
            have hbuilt : matchEnvVar (u ++ c :: vs) ≠ none := by
              simp only [matchEnvVar, hkwt (c :: vs)]
              rw [takeWhileLen_append_stop isSpaceCh c hns u₂ vs]
              rw [drop_append_le u₂ _ _ (takeWhileLen_le _ u₂)]
              rw [hds]
              simp only [List.cons_append]
              rw [if_pos hee]
              rw [takeWhileLen_append_stop isSpaceCh c hns u₃ vs]
              rw [drop_append_le u₃ _ _ (takeWhileLen_le _ u₃)]
              rw [if_neg hn0']
              simp
            exact hbuilt hnone
        · cases h2

theorem noOcc_sub_self (m : List Char → Option Nat)
    (hm1 : ∀ u ℓ, m u = some ℓ → 1 ≤ ℓ)
    (hnil : m [] = none)
    (hstart : ∀ c cs ℓ, m (c :: cs) = some ℓ → isSpaceCh c = false)
    (hph : ∀ i, i < PH.length → ∀ w, m (PH.drop i ++ w) = none)
    (hdiv : ∀ u c vs v, isSpaceCh c = false → m (u ++ c :: vs) = none →
      m (u ++ PH ++ v) = none)
    (s : List Char) : noOcc m (sub m s) := by
  suffices h : ∀ n (t : List Char), t.length ≤ n → noOcc m (sub m t) from
    h s.length s le_rfl
  intro n
  induction n with
  | zero =>
    intro t ht
    have hte : t = [] := List.eq_nil_of_length_eq_zero (Nat.le_zero.mp ht)
    subst hte
    intro i
    have hsn : sub m ([] : List Char) = [] := rfl
    rw [hsn, List.drop_nil]
    exact hnil
  | succ n ih =>
    intro t ht
    rcases sub_decomp m hm1 hnil t with ⟨hid, hno⟩ | ⟨g, rest, ℓ, hsgr, hmr, hg, hsub⟩
    · rw [hid]
      exact hno
    · obtain ⟨c, cs, hrest⟩ : ∃ c cs, rest = c :: cs := by
        cases rest with
        | nil => rw [hnil] at hmr; cases hmr
        | cons c cs => exact ⟨c, cs, rfl⟩
      have hc : isSpaceCh c = false := hstart c cs ℓ (hrest ▸ hmr)
      have hWlen : (rest.drop ℓ).length ≤ n := by
        have h1 : 1 ≤ ℓ := hm1 _ _ hmr
        have h2 : t.length = g.length + rest.length := by
          rw [hsgr, List.length_append]
        have h3 : 1 ≤ rest.length := by rw [hrest]; simp
        rw [List.length_drop]
        omega
      have hW : noOcc m (sub m (rest.drop ℓ)) := ih (rest.drop ℓ) hWlen
      rw [hsub]
      intro i
      rw [List.append_assoc, List.drop_append_eq_append_drop,
        List.drop_append_eq_append_drop]
      by_cases hig : i < g.length
      · rw [Nat.sub_eq_zero_of_le (le_of_lt hig)]
        simp only [Nat.zero_sub, List.drop_zero]
        rw [← List.append_assoc]
        refine hdiv (g.drop i) c cs (sub m (rest.drop ℓ)) hc ?_
        have hgi := hg i hig
        rw [hsgr, drop_append_le g rest i (le_of_lt hig), hrest] at hgi
        exact hgi
      · by_cases hip : i < g.length + PH.length
        · have hgd : g.drop i = [] := List.drop_eq_nil_of_le (Nat.le_of_not_lt hig)
          have hj : i - g.length - PH.length = 0 := by omega
          rw [hgd, hj, List.nil_append, List.drop_zero]
          exact hph (i - g.length) (by omega) _
        · have hgd : g.drop i = [] := List.drop_eq_nil_of_le (by omega)
          have hpd : PH.drop (i - g.length) = [] :=
            List.drop_eq_nil_of_le (by omega)
          rw [hgd, hpd, List.nil_append, List.nil_append]
          exact hW _

theorem noOcc_sub_other (m m' : List Char → Option Nat)
    (hm1 : ∀ u ℓ, m u = some ℓ → 1 ≤ ℓ)
    (hnil : m [] = none)
    (hstart : ∀ c cs ℓ, m (c :: cs) = some ℓ → isSpaceCh c = false)
    (hph : ∀ i, i < PH.length → ∀ w, m' (PH.drop i ++ w) = none)
    (hdiv : ∀ u c vs v, isSpaceCh c = false → m' (u ++ c :: vs) = none →
      m' (u ++ PH ++ v) = none)
    (s : List Char) (hno0 : noOcc m' s) : noOcc m' (sub m s) := by
  suffices h : ∀ n (t : List Char), t.length ≤ n → noOcc m' t → noOcc m' (sub m t) from
    h s.length s le_rfl hno0
  intro n
  induction n with
  | zero =>
    intro t ht hno
    have hte : t = [] := List.eq_nil_of_length_eq_zero (Nat.le_zero.mp ht)
    subst hte
    exact hno
  | succ n ih =>
    intro t ht hno
    rcases sub_decomp m hm1 hnil t with ⟨hid, _⟩ | ⟨g, rest, ℓ, hsgr, hmr, _, hsub⟩
    · rw [hid]
      exact hno
    · obtain ⟨c, cs, hrest⟩ : ∃ c cs, rest = c :: cs := by
        cases rest with
        | nil => rw [hnil] at hmr; cases hmr
        | cons c cs => exact ⟨c, cs, rfl⟩
      have hc : isSpaceCh c = false := hstart c cs ℓ (hrest ▸ hmr)
      have hWlen : (rest.drop ℓ).length ≤ n := by
        have h1 : 1 ≤ ℓ := hm1 _ _ hmr
        have h2 : t.length = g.length + rest.length := by
          rw [hsgr, List.length_append]
        have h3 : 1 ≤ rest.length := by rw [hrest]; simp
        rw [List.length_drop]
        omega
      have hnotail : noOcc m' (rest.drop ℓ) := by
        have hd := noOcc_drop m' t (g.length + ℓ) hno
        rw [hsgr, List.drop_append_eq_append_drop,
          List.drop_eq_nil_of_le (Nat.le_add_right g.length ℓ),
          List.nil_append, Nat.add_sub_cancel_left] at hd
        exact hd
      have hW : noOcc m' (sub m (rest.drop ℓ)) := ih (rest.drop ℓ) hWlen hnotail
      rw [hsub]
      intro i
      rw [List.append_assoc, List.drop_append_eq_append_drop,
        List.drop_append_eq_append_drop]
      by_cases hig : i < g.length
      · rw [Nat.sub_eq_zero_of_le (le_of_lt hig)]
        simp only [Nat.zero_sub, List.drop_zero]
        rw [← List.append_assoc]
        refine hdiv (g.drop i) c cs (sub m (rest.drop ℓ)) hc ?_
        have hgi := hno i
        rw [hsgr, drop_append_le g rest i (le_of_lt hig), hrest] at hgi
        exact hgi
      · by_cases hip : i < g.length + PH.length
        · have hgd : g.drop i = [] := List.drop_eq_nil_of_le (Nat.le_of_not_lt hig)
          have hj : i - g.length - PH.length = 0 := by omega
          rw [hgd, hj, List.nil_append, List.drop_zero]
          exact hph (i - g.length) (by omega) _
        · have hgd : g.drop i = [] := List.drop_eq_nil_of_le (by omega)
          have hpd : PH.drop (i - g.length) = [] :=
            List.drop_eq_nil_of_le (by omega)
          rw [hgd, hpd, List.nil_append, List.nil_append]
          exact hW _

/-- The seven obligations chained: after the full `redact` pass no
pattern of the default configuration matches anywhere in the result. -/
theorem redact_noOcc (s : List Char) :
    noOcc matchSk (redact s) ∧ noOcc matchAnthropic (redact s) ∧
    noOcc matchBearer (redact s) ∧ noOcc matchEnvVar (redact s) ∧
    noOcc matchAws (redact s) ∧ noOcc matchBasic (redact s) ∧
    noOcc matchPrivKey (redact s) := by
  have n1_1 : noOcc matchSk (sub matchSk s) :=
    noOcc_sub_self matchSk matchSk_pos matchSk_nil matchSk_start matchSk_ph matchSk_div s
  have n1_2 : noOcc matchSk (sub matchAnthropic (sub matchSk s)) :=
    noOcc_sub_other matchAnthropic matchSk matchAnthropic_pos matchAnthropic_nil matchAnthropic_start matchSk_ph matchSk_div (sub matchSk s) n1_1
  have n1_3 : noOcc matchSk (sub matchBearer (sub matchAnthropic (sub matchSk s))) :=
    noOcc_sub_other matchBearer matchSk matchBearer_pos matchBearer_nil matchBearer_start matchSk_ph matchSk_div (sub matchAnthropic (sub matchSk s)) n1_2
  have n1_4 : noOcc matchSk (sub matchEnvVar (sub matchBearer (sub matchAnthropic (sub matchSk s)))) :=
    noOcc_sub_other matchEnvVar matchSk matchEnvVar_pos matchEnvVar_nil matchEnvVar_start matchSk_ph matchSk_div (sub matchBearer (sub matchAnthropic (sub matchSk s))) n1_3
  have n1_5 : noOcc matchSk (sub matchAws (sub matchEnvVar (sub matchBearer (sub matchAnthropic (sub matchSk s))))) :=
    noOcc_sub_other matchAws matchSk matchAws_pos matchAws_nil matchAws_start matchSk_ph matchSk_div (sub matchEnvVar (sub matchBearer (sub matchAnthropic (sub matchSk s)))) n1_4
  have n1_6 : noOcc matchSk (sub matchBasic (sub matchAws (sub matchEnvVar (sub matchBearer (sub matchAnthropic (sub matchSk s)))))) :=
    noOcc_sub_other matchBasic matchSk matchBasic_pos matchBasic_nil matchBasic_start matchSk_ph matchSk_div (sub matchAws (sub matchEnvVar (sub matchBearer (sub matchAnthropic (sub matchSk s))))) n1_5
  have n1_7 : noOcc matchSk (sub matchPrivKey (sub matchBasic (sub matchAws (sub matchEnvVar (sub matchBearer (sub matchAnthropic (sub matchSk s))))))) :=
    noOcc_sub_other matchPrivKey matchSk matchPrivKey_pos matchPrivKey_nil matchPrivKey_start matchSk_ph matchSk_div (sub matchBasic (sub matchAws (sub matchEnvVar (sub matchBearer (sub matchAnthropic (sub matchSk s)))))) n1_6
  have n2_2 : noOcc matchAnthropic (sub matchAnthropic (sub matchSk s)) :=
    noOcc_sub_self matchAnthropic matchAnthropic_pos matchAnthropic_nil matchAnthropic_start matchAnthropic_ph matchAnthropic_div (sub matchSk s)
  have n2_3 : noOcc matchAnthropic (sub matchBearer (sub matchAnthropic (sub matchSk s))) :=
    noOcc_sub_other matchBearer matchAnthropic matchBearer_pos matchBearer_nil matchBearer_start matchAnthropic_ph matchAnthropic_div (sub matchAnthropic (sub matchSk s)) n2_2
  have n2_4 : noOcc matchAnthropic (sub matchEnvVar (sub matchBearer (sub matchAnthropic (sub matchSk s)))) :=
    noOcc_sub_other matchEnvVar matchAnthropic matchEnvVar_pos matchEnvVar_nil matchEnvVar_start matchAnthropic_ph matchAnthropic_div (sub matchBearer (sub matchAnthropic (sub matchSk s))) n2_3
  have n2_5 : noOcc matchAnthropic (sub matchAws (sub matchEnvVar (sub matchBearer (sub matchAnthropic (sub matchSk s))))) :=
    noOcc_sub_other matchAws matchAnthropic matchAws_pos matchAws_nil matchAws_start matchAnthropic_ph matchAnthropic_div (sub matchEnvVar (sub matchBearer (sub matchAnthropic (sub matchSk s)))) n2_4
  have n2_6 : noOcc matchAnthropic (sub matchBasic (sub matchAws (sub matchEnvVar (sub matchBearer (sub matchAnthropic (sub matchSk s)))))) :=
    noOcc_sub_other matchBasic matchAnthropic matchBasic_pos matchBasic_nil matchBasic_start matchAnthropic_ph matchAnthropic_div (sub matchAws (sub matchEnvVar (sub matchBearer (sub matchAnthropic (sub matchSk s))))) n2_5
  have n2_7 : noOcc matchAnthropic (sub matchPrivKey (sub matchBasic (sub matchAws (sub matchEnvVar (sub matchBearer (sub matchAnthropic (sub matchSk s))))))) :=
    noOcc_sub_other matchPrivKey matchAnthropic matchPrivKey_pos matchPrivKey_nil matchPrivKey_start matchAnthropic_ph matchAnthropic_div (sub matchBasic (sub matchAws (sub matchEnvVar (sub matchBearer (sub matchAnthropic (sub matchSk s)))))) n2_6
  have n3_3 : noOcc matchBearer (sub matchBearer (sub matchAnthropic (sub matchSk s))) :=
    noOcc_sub_self matchBearer matchBearer_pos matchBearer_nil matchBearer_start matchBearer_ph matchBearer_div (sub matchAnthropic (sub matchSk s))
  have n3_4 : noOcc matchBearer (sub matchEnvVar (sub matchBearer (sub matchAnthropic (sub matchSk s)))) :=
    noOcc_sub_other matchEnvVar matchBearer matchEnvVar_pos matchEnvVar_nil matchEnvVar_start matchBearer_ph matchBearer_div (sub matchBearer (sub matchAnthropic (sub matchSk s))) n3_3
  have n3_5 : noOcc matchBearer (sub matchAws (sub matchEnvVar (sub matchBearer (sub matchAnthropic (sub matchSk s))))) :=
    noOcc_sub_other matchAws matchBearer matchAws_pos matchAws_nil matchAws_start matchBearer_ph matchBearer_div (sub matchEnvVar (sub matchBearer (sub matchAnthropic (sub matchSk s)))) n3_4
  have n3_6 : noOcc matchBearer (sub matchBasic (sub matchAws (sub matchEnvVar (sub matchBearer (sub matchAnthropic (sub matchSk s)))))) :=
    noOcc_sub_other matchBasic matchBearer matchBasic_pos matchBasic_nil matchBasic_start matchBearer_ph matchBearer_div (sub matchAws (sub matchEnvVar (sub matchBearer (sub matchAnthropic (sub matchSk s))))) n3_5
  have n3_7 : noOcc matchBearer (sub matchPrivKey (sub matchBasic (sub matchAws (sub matchEnvVar (sub matchBearer (sub matchAnthropic (sub matchSk s))))))) :=
    noOcc_sub_other matchPrivKey matchBearer matchPrivKey_pos matchPrivKey_nil matchPrivKey_start matchBearer_ph matchBearer_div (sub matchBasic (sub matchAws (sub matchEnvVar (sub matchBearer (sub matchAnthropic (sub matchSk s)))))) n3_6
  have n4_4 : noOcc matchEnvVar (sub matchEnvVar (sub matchBearer (sub matchAnthropic (sub matchSk s)))) :=
    noOcc_sub_self matchEnvVar matchEnvVar_pos matchEnvVar_nil matchEnvVar_start matchEnvVar_ph matchEnvVar_div (sub matchBearer (sub matchAnthropic (sub matchSk s)))
  have n4_5 : noOcc matchEnvVar (sub matchAws (sub matchEnvVar (sub matchBearer (sub matchAnthropic (sub matchSk s))))) :=
    noOcc_sub_other matchAws matchEnvVar matchAws_pos matchAws_nil matchAws_start matchEnvVar_ph matchEnvVar_div (sub matchEnvVar (sub matchBearer (sub matchAnthropic (sub matchSk s)))) n4_4
  have n4_6 : noOcc matchEnvVar (sub matchBasic (sub matchAws (sub matchEnvVar (sub matchBearer (sub matchAnthropic (sub matchSk s)))))) :=
    noOcc_sub_other matchBasic matchEnvVar matchBasic_pos matchBasic_nil matchBasic_start matchEnvVar_ph matchEnvVar_div (sub matchAws (sub matchEnvVar (sub matchBearer (sub matchAnthropic (sub matchSk s))))) n4_5
  have n4_7 : noOcc matchEnvVar (sub matchPrivKey (sub matchBasic (sub matchAws (sub matchEnvVar (sub matchBearer (sub matchAnthropic (sub matchSk s))))))) :=
    noOcc_sub_other matchPrivKey matchEnvVar matchPrivKey_pos matchPrivKey_nil matchPrivKey_start matchEnvVar_ph matchEnvVar_div (sub matchBasic (sub matchAws (sub matchEnvVar (sub matchBearer (sub matchAnthropic (sub matchSk s)))))) n4_6
  have n5_5 : noOcc matchAws (sub matchAws (sub matchEnvVar (sub matchBearer (sub matchAnthropic (sub matchSk s))))) :=
    noOcc_sub_self matchAws matchAws_pos matchAws_nil matchAws_start matchAws_ph matchAws_div (sub matchEnvVar (sub matchBearer (sub matchAnthropic (sub matchSk s))))
  have n5_6 : noOcc matchAws (sub matchBasic (sub matchAws (sub matchEnvVar (sub matchBearer (sub matchAnthropic (sub matchSk s)))))) :=
    noOcc_sub_other matchBasic matchAws matchBasic_pos matchBasic_nil matchBasic_start matchAws_ph matchAws_div (sub matchAws (sub matchEnvVar (sub matchBearer (sub matchAnthropic (sub matchSk s))))) n5_5
  have n5_7 : noOcc matchAws (sub matchPrivKey (sub matchBasic (sub matchAws (sub matchEnvVar (sub matchBearer (sub matchAnthropic (sub matchSk s))))))) :=
    noOcc_sub_other matchPrivKey matchAws matchPrivKey_pos matchPrivKey_nil matchPrivKey_start matchAws_ph matchAws_div (sub matchBasic (sub matchAws (sub matchEnvVar (sub matchBearer (sub matchAnthropic (sub matchSk s)))))) n5_6
  have n6_6 : noOcc matchBasic (sub matchBasic (sub matchAws (sub matchEnvVar (sub matchBearer (sub matchAnthropic (sub matchSk s)))))) :=
    noOcc_sub_self matchBasic matchBasic_pos matchBasic_nil matchBasic_start matchBasic_ph matchBasic_div (sub matchAws (sub matchEnvVar (sub matchBearer (sub matchAnthropic (sub matchSk s)))))
  have n6_7 : noOcc matchBasic (sub matchPrivKey (sub matchBasic (sub matchAws (sub matchEnvVar (sub matchBearer (sub matchAnthropic (sub matchSk s))))))) :=
    noOcc_sub_other matchPrivKey matchBasic matchPrivKey_pos matchPrivKey_nil matchPrivKey_start matchBasic_ph matchBasic_div (sub matchBasic (sub matchAws (sub matchEnvVar (sub matchBearer (sub matchAnthropic (sub matchSk s)))))) n6_6
  have n7_7 : noOcc matchPrivKey (sub matchPrivKey (sub matchBasic (sub matchAws (sub matchEnvVar (sub matchBearer (sub matchAnthropic (sub matchSk s))))))) :=
    noOcc_sub_self matchPrivKey matchPrivKey_pos matchPrivKey_nil matchPrivKey_start matchPrivKey_ph matchPrivKey_div (sub matchBasic (sub matchAws (sub matchEnvVar (sub matchBearer (sub matchAnthropic (sub matchSk s))))))
  have m1R : noOcc matchSk (redact s) := n1_7
  have m2R : noOcc matchAnthropic (redact s) := n2_7
  have m3R : noOcc matchBearer (redact s) := n3_7
  have m4R : noOcc matchEnvVar (redact s) := n4_7
  have m5R : noOcc matchAws (redact s) := n5_7
  have m6R : noOcc matchBasic (redact s) := n6_7
  have m7R : noOcc matchPrivKey (redact s) := n7_7
  exact ⟨m1R, m2R, m3R, m4R, m5R, m6R, m7R⟩

/-- C8: for every string `s`, `redact(redact(s)) == redact(s)` under the
default redaction configuration: the output of `redact` contains no
substring matching any default secret pattern, so a second application
changes nothing. -/
theorem redact_idempotent (s : List Char) : redact (redact s) = redact s := by
  obtain ⟨m1R, m2R, m3R, m4R, m5R, m6R, m7R⟩ := redact_noOcc s
  show sub matchPrivKey (sub matchBasic (sub matchAws (sub matchEnvVar
    (sub matchBearer (sub matchAnthropic (sub matchSk (redact s))))))) = redact s
  rw [sub_id_of_noOcc matchSk (redact s) m1R,
    sub_id_of_noOcc matchAnthropic (redact s) m2R,
    sub_id_of_noOcc matchBearer (redact s) m3R,
    sub_id_of_noOcc matchEnvVar (redact s) m4R,
    sub_id_of_noOcc matchAws (redact s) m5R,
    sub_id_of_noOcc matchBasic (redact s) m6R,
    sub_id_of_noOcc matchPrivKey (redact s) m7R]

end Shesha
